import Mathlib

/-
Verification of the game-data transformation pipeline (src/1.py) against its
natural-language specification.

The JSON data model is embedded as a mutual inductive (`Json`/`JsonArr`/`JsonObj`);
tables loaded from files (Python dicts) are embedded as association lists
`List (String × Json)` in insertion order with unique keys.  Numbers are
modelled as `Int` (the tables under verification carry integer ids and indices;
floats do not occur in any claim).  Python `str.strip` is modelled on the ASCII
whitespace characters, `int(...)` on optional sign plus ASCII digits, and the
regex `\d` on ASCII digits; the namecode tables use ASCII-digit codes, so these
coincide with CPython on all inputs under consideration.  Python functions that
can raise on malformed records (`dict.get` on a non-dict, `int()` on a
non-numeric key, comparison of mixed-type sort keys) are either modelled with
`Option` results or guarded by decidable well-formedness hypotheses restricting
theorems to inputs on which the Python code does not raise.
-/

-- ## Decimal printing (Python `str` on a non-negative integer)

/-- Fuel-driven decimal digit list of a natural number, most significant first.
The fuel argument makes the definition structural so that it reduces in the
kernel; `natDigs` instantiates the fuel adequately. -/
def natDigsF : Nat → Nat → List Char
  | 0, n => [Nat.digitChar (n % 10)]
  | f+1, n => if n < 10 then [Nat.digitChar n] else natDigsF f (n / 10) ++ [Nat.digitChar (n % 10)]

def natDigs (n : Nat) : List Char := natDigsF n n

/-- Python `str(n)` for a natural number. -/
def pyStrNat (n : Nat) : String := ⟨natDigs n⟩

/-- Python `str(i)` for an integer. -/
def pyIntStr (i : Int) : String := if i < 0 then "-" ++ pyStrNat i.natAbs else pyStrNat i.toNat

/-- Numeric value of a decimal digit list. -/
def digitsVal (ds : List Char) : Nat := ds.foldl (fun a c => 10 * a + (c.toNat - 48)) 0

def parseDigits (ds : List Char) : Option Nat :=
  if ds ≠ [] ∧ ds.all Char.isDigit then some (digitsVal ds) else none

/-- Python `int(s)` on a string key: optional sign followed by decimal digits;
`none` models a `ValueError`. -/
def pyIntOfStr (s : String) : Option Int :=
  match s.data with
  | '-' :: ds => (parseDigits ds).map (fun n => -(n : Int))
  | '+' :: ds => (parseDigits ds).map (fun n => (n : Int))
  | ds => (parseDigits ds).map (fun n => (n : Int))

-- ## The JSON value model

mutual
inductive Json where
  | str (s : String)
  | num (n : Int)
  | bool (b : Bool)
  | null
  | arr (xs : JsonArr)
  | obj (kvs : JsonObj)
deriving DecidableEq
inductive JsonArr where
  | nil
  | cons (hd : Json) (tl : JsonArr)
deriving DecidableEq
inductive JsonObj where
  | nil
  | cons (key : String) (val : Json) (tl : JsonObj)
deriving DecidableEq
end

instance : Inhabited Json := ⟨Json.null⟩

def JsonArr.toList : JsonArr → List Json
  | .nil => []
  | .cons h t => h :: t.toList

def JsonArr.ofList : List Json → JsonArr
  | [] => .nil
  | h :: t => .cons h (JsonArr.ofList t)

def JsonObj.toList : JsonObj → List (String × Json)
  | .nil => []
  | .cons k v t => (k, v) :: t.toList

def JsonObj.ofList : List (String × Json) → JsonObj
  | [] => .nil
  | (k, v) :: t => .cons k v (JsonObj.ofList t)

/-- Python `d.get(k)` on a parsed-JSON dict (`none` both for an absent key and
for a non-dict receiver; the latter raises `AttributeError` in Python and is
excluded by the well-formedness hypotheses of the theorems below). -/
def jGet (j : Json) (k : String) : Option Json :=
  match j with
  | Json.obj kvs => List.lookup k kvs.toList
  | _ => none

def jIsObj : Json → Bool
  | Json.obj _ => true
  | _ => false

def jIsStr : Json → Bool
  | Json.str _ => true
  | _ => false

/-- Python truthiness of a parsed-JSON value. -/
def pyTruthy : Json → Bool
  | Json.str s => s ≠ ""
  | Json.num n => n ≠ 0
  | Json.bool b => b
  | Json.null => false
  | Json.arr .nil => false
  | Json.arr (.cons _ _) => true
  | Json.obj .nil => false
  | Json.obj (.cons _ _ _) => true

mutual
/-- Python `repr` of a parsed-JSON value (string quoting without escape
sequences; the claims never depend on repr of strings containing quotes). -/
def pyRepr : Json → String
  | Json.str s => "'" ++ s ++ "'"
  | Json.num n => pyIntStr n
  | Json.bool true => "True"
  | Json.bool false => "False"
  | Json.null => "None"
  | Json.arr xs => "[" ++ String.intercalate ", " (pyReprArr xs) ++ "]"
  | Json.obj kvs => "\x7b" ++ String.intercalate ", " (pyReprObj kvs) ++ "\x7d"
def pyReprArr : JsonArr → List String
  | .nil => []
  | .cons h t => pyRepr h :: pyReprArr t
def pyReprObj : JsonObj → List String
  | .nil => []
  | .cons k v t => ("'" ++ k ++ "': " ++ pyRepr v) :: pyReprObj t
end

/-- Python `str(x)` of a parsed-JSON value. -/
def pyStr : Json → String
  | Json.str s => s
  | j => pyRepr j

-- ## Python string helpers

/-- ASCII whitespace stripped by Python `str.strip()`. -/
def pyIsSpace (c : Char) : Bool :=
  c = ' ' || c = '\t' || c = '\n' || c = '\r' || c = '\x0b' || c = '\x0c'

/-- Python `s.strip()`. -/
def pyStrip (s : String) : String :=
  ⟨((s.data.dropWhile pyIsSpace).reverse.dropWhile pyIsSpace).reverse⟩

-- ## The namecode substitution engine (src/1.py, replace_namecodes, lines 53-66)

def lbr : Char := Char.ofNat 123

def rbr : Char := Char.ofNat 125

/-- The literal characters of the regex before the digit group. -/
def phMark : List Char := lbr :: "namecode:".data

/-- Attempt to match the regex `\x7bnamecode:(\d+)\x7d` at the head of the
character list, returning the digit group and the remainder after the match. -/
def matchPH (l : List Char) : Option (List Char × List Char) :=
  if l.take 10 = phMark then
    match (l.drop 10).dropWhile Char.isDigit with
    | c :: rest2 =>
      if c = rbr ∧ (l.drop 10).takeWhile Char.isDigit ≠ [] then
        some ((l.drop 10).takeWhile Char.isDigit, rest2)
      else none
    | [] => none
  else none

/-- The full matched placeholder text for a digit group. -/
def phText (ds : List Char) : List Char := phMark ++ ds ++ [rbr]

/-- A namecode table: a dict mapping digit-string codes to records. -/
def CodeMapping : Type := List (String × Json)

/-- `code_mapping.get(code, \x7b\x7d).get('name', ...)`: the name field of the
entry for a code, when the entry exists, is a dict and carries a string name. -/
def cmName (cm : CodeMapping) (code : String) : Option String :=
  match List.lookup code cm with
  | some (Json.obj kvs) =>
    match List.lookup "name" kvs.toList with
    | some (Json.str s) => some s
    | _ => none
  | _ => none

/-- The replacement emitted for one regex match (line 56 of the source):
the name when the table resolves the code, the whole match otherwise. -/
def resolvePH (cm : CodeMapping) (ds : List Char) : List Char :=
  match cmName cm ⟨ds⟩ with
  | some s => s.data
  | none => phText ds

/-- Fuel-driven left-to-right single-pass regex substitution (`re.sub`);
the fuel makes it structural, `substChars` instantiates it adequately. -/
def substFuel (cm : CodeMapping) : Nat → List Char → List Char
  | 0, l => l
  | _+1, [] => []
  | f+1, c :: t =>
    match matchPH (c :: t) with
    | some (ds, rest) => resolvePH cm ds ++ substFuel cm f rest
    | none => c :: substFuel cm f t

/-- `re.sub(r'\x7bnamecode:(\d+)\x7d', replace_match, s)` on the characters of `s`. -/
def substChars (cm : CodeMapping) (l : List Char) : List Char := substFuel cm l.length l

/-- Codes of all (leftmost, non-overlapping) placeholder matches in a string. -/
def phCodesF : Nat → List Char → List (List Char)
  | 0, _ => []
  | _+1, [] => []
  | f+1, c :: t =>
    match matchPH (c :: t) with
    | some (ds, rest) => ds :: phCodesF f rest
    | none => phCodesF f t

def phCodes (l : List Char) : List (List Char) := phCodesF l.length l

/-- Specification-side search: the first position at which a placeholder
matches, returning the prefix before the match, the digits and the remainder. -/
def findPH : List Char → Option (List Char × List Char × List Char)
  | [] => none
  | c :: t =>
    match matchPH (c :: t) with
    | some (ds, rest) => some ([], ds, rest)
    | none => (findPH t).map (fun p => (c :: p.1, p.2.1, p.2.2))

/-- Specification-side substitution, following the spec text: find each
occurrence of the placeholder pattern in turn, replace it by the mapped name
(or keep the full placeholder text when the table has no name for the code),
and leave everything else unchanged. -/
def substSpecF (cm : CodeMapping) : Nat → List Char → List Char
  | 0, l => l
  | f+1, l =>
    match findPH l with
    | none => l
    | some (pre, ds, rest) => pre ++ resolvePH cm ds ++ substSpecF cm f rest

def substSpec (cm : CodeMapping) (l : List Char) : List Char := substSpecF cm l.length l

mutual
/-- `replace_namecodes` (src/1.py lines 53-66): strings get the regex
substitution, dicts are rewritten value-wise, lists element-wise, all other
scalars are returned unchanged. -/
def replace_namecodes (cm : CodeMapping) : Json → Json
  | Json.str s => Json.str ⟨substChars cm s.data⟩
  | Json.num n => Json.num n
  | Json.bool b => Json.bool b
  | Json.null => Json.null
  | Json.arr xs => Json.arr (replaceArr cm xs)
  | Json.obj kvs => Json.obj (replaceObj cm kvs)
def replaceArr (cm : CodeMapping) : JsonArr → JsonArr
  | .nil => .nil
  | .cons h t => .cons (replace_namecodes cm h) (replaceArr cm t)
def replaceObj (cm : CodeMapping) : JsonObj → JsonObj
  | .nil => .nil
  | .cons k v t => .cons k (replace_namecodes cm v) (replaceObj cm t)
end

/-- Decidable well-formedness of a namecode table: every entry is a dict whose
`name` field, when present, is a string.  (A non-dict entry or a non-string
name makes the Python `replace_match` raise inside `re.sub`.) -/
def cmWFb (cm : CodeMapping) : Bool :=
  cm.all (fun p =>
    match p.2 with
    | Json.obj kvs => kvs.toList.all (fun q => q.1 ≠ "name" || jIsStr q.2)
    | _ => false)

-- ## Python dicts built by sequential insertion

/-- Python dict assignment `d[k] = v`: overwrite in place, else append. -/
def dictInsert {β : Type} : List (String × β) → String → β → List (String × β)
  | [], k, v => [(k, v)]
  | (k0, v0) :: t, k, v => if k0 = k then (k, v) :: t else (k0, v0) :: dictInsert t k v

/-- Sequential insertion of a list of pairs into a dict. -/
def insertAll {β : Type} (gm : List (String × β)) (ps : List (String × β)) : List (String × β) :=
  ps.foldl (fun g p => dictInsert g p.1 p.2) gm

/-- A Python dict comprehension over a list of key-value pairs. -/
def mkDict {β : Type} (ps : List (String × β)) : List (String × β) := insertAll [] ps

-- ## Entity normalizer (src/1.py, process_ships / process_skins, lines 68-119)

/-- The sort key `int(x[0])` used by `sorted(original_data.items(), ...)`;
the fallback 0 is never reached under the key-parse hypotheses (Python would
raise `ValueError`). -/
def keyI (p : String × Json) : Int := (pyIntOfStr p.1).getD 0

def shipLE (a b : String × Json) : Prop := keyI a ≤ keyI b

instance : DecidableRel shipLE := fun a b => inferInstanceAs (Decidable (keyI a ≤ keyI b))

instance : IsTotal (String × Json) shipLE := ⟨fun a b => Int.le_total (keyI a) (keyI b)⟩

instance : IsTrans (String × Json) shipLE := ⟨fun _ _ _ hab hbc => Int.le_trans hab hbc⟩

/-- `sorted(original_data.items(), key=lambda x: int(x[0]))` (Python sort is
stable; insertion sort as defined is stable for the same ties). -/
def sortShips (tbl : List (String × Json)) : List (String × Json) := List.insertionSort shipLE tbl

structure ShipRecord where
  id : String
  id2 : String
  name : Json
  ship_group : String
  painting : Json
deriving DecidableEq

instance : Inhabited ShipRecord := ⟨⟨"", "", Json.null, "", Json.null⟩⟩

/-- Derivation of the `ship_group` string (src/1.py lines 78-84): the first
truthy element of a list, stringified; a truthy scalar, stringified; else "". -/
def deriveGroup : Option Json → String
  | some (Json.arr xs) =>
    match xs.toList.find? pyTruthy with
    | some x => pyStr x
    | none => ""
  | some v => if pyTruthy v then pyStr v else ""
  | none => ""

/-- The enumerate loop of `process_ships` (lines 75-96), carrying the running
index and the `seen_groups` set. -/
def processShipsLoop (cm : CodeMapping) : Nat → List String → List (String × Json) → List ShipRecord
  | _, _, [] => []
  | idx, seen, (shipId, shipData) :: rest =>
    let processed := replace_namecodes cm shipData
    let sg := deriveGroup (jGet processed "ship_group")
    let finalG := if sg ∈ seen then "" else sg
    let seen' := if sg ≠ "" then sg :: seen else seen
    { id := shipId
      id2 := pyStrNat idx
      name := (jGet processed "name").getD (Json.str "")
      ship_group := finalG
      painting := (jGet processed "painting").getD (Json.str "") } ::
      processShipsLoop cm (idx + 1) seen' rest

def process_ships (cm : CodeMapping) (tbl : List (String × Json)) : List ShipRecord :=
  processShipsLoop cm 1 [] (sortShips tbl)

/-- The group derived for the i-th record of a table in sorted order (the value
the specification claims `ship_group` always equals). -/
def derivedGroupAt (cm : CodeMapping) (l : List (String × Json)) (i : Nat) : String :=
  deriveGroup (jGet (replace_namecodes cm (l.getD i default).2) "ship_group")

/-- `\x7bs["id"]: s["id2"] for s in ships\x7d` (line 141). -/
def id_to_id2 (ships : List ShipRecord) : List (String × String) :=
  mkDict (ships.map (fun s => (s.id, s.id2)))

/-- `\x7bs["id2"]: s["id"] for s in ships\x7d` (line 142). -/
def id2_to_id (ships : List ShipRecord) : List (String × String) :=
  mkDict (ships.map (fun s => (s.id2, s.id)))

structure SkinRecord where
  id : String
  original_id : String
  name : Json
  painting : Json
deriving DecidableEq

/-- The loop of `process_skins` (lines 106-116): emit a record for every
source record containing a `painting` key; `none` models the `KeyError`
raised by `processed_data["name"]` when the `name` key is absent. -/
def processSkinsLoop (cm : CodeMapping) : Nat → List (String × Json) → Option (List SkinRecord)
  | _, [] => some []
  | skinIdx, (shipId, shipData) :: rest =>
    let processed := replace_namecodes cm shipData
    match jGet processed "painting" with
    | some p =>
      match jGet processed "name" with
      | some nm =>
        (processSkinsLoop cm (skinIdx + 1) rest).map
          (fun l => { id := pyStrNat skinIdx, original_id := shipId, name := nm, painting := p } :: l)
      | none => none
    | none => processSkinsLoop cm skinIdx rest

def process_skins (cm : CodeMapping) (tbl : List (String × Json)) : Option (List SkinRecord) :=
  processSkinsLoop cm 1 (sortShips tbl)

/-- `\x7bs["id"]: s["original_id"] for s in skins\x7d` (line 145). -/
def skin_id_to_original (skins : List SkinRecord) : List (String × String) :=
  mkDict (skins.map (fun s => (s.id, s.original_id)))

/-- `\x7bs["original_id"]: s["id"] for s in skins\x7d` (line 146). -/
def skin_original_to_id (skins : List SkinRecord) : List (String × String) :=
  mkDict (skins.map (fun s => (s.original_id, s.id)))

-- ## Decidable table well-formedness hypotheses

/-- Every key parses as an integer (otherwise Python `int` raises). -/
def keysParseB (tbl : List (String × Json)) : Bool := tbl.all (fun p => (pyIntOfStr p.1).isSome)

/-- Every record is a dict (otherwise Python `.get` raises). -/
def valsObjB (tbl : List (String × Json)) : Bool := tbl.all (fun p => jIsObj p.2)

-- ## Voice-mapping builder (src/1.py, generate_skin_voice_mapping, lines 274-341)

structure SkinEntry where
  skin_id : String
  group_index : Int
  name : Json
deriving DecidableEq

/-- `info.get("group_index", 0)`; a present non-numeric value would make the
Python sort raise and is excluded by `tmplOKb`. -/
def giOf (info : Json) : Int :=
  match jGet info "group_index" with
  | some (Json.num n) => n
  | _ => 0

def skinEntryOf (skinId : String) (info : Json) : SkinEntry :=
  { skin_id := skinId
    group_index := giOf info
    name := (jGet info "name").getD (Json.str "未知皮肤") }

/-- `defaultdict(list)` append: extend the existing group in place, else create
a new group at the end (Python dicts preserve insertion order). -/
def addToGroup : List (String × List SkinEntry) → String → SkinEntry → List (String × List SkinEntry)
  | [], k, e => [(k, [e])]
  | (g, l) :: t, k, e => if g = k then (g, l ++ [e]) :: t else (g, l) :: addToGroup t k e

/-- The grouping loop (lines 295-305): skip records lacking `ship_group` (or
carrying `None` there), key groups by `str(ship_group)`. -/
def collectSkins : List (String × Json) → List (String × List SkinEntry) → List (String × List SkinEntry)
  | [], m => m
  | (sid, info) :: rest, m =>
    match jGet info "ship_group" with
    | none => collectSkins rest m
    | some Json.null => collectSkins rest m
    | some g => collectSkins rest (addToGroup m (pyStr g) (skinEntryOf sid info))

def giLE (a b : SkinEntry) : Prop := a.group_index ≤ b.group_index

instance : DecidableRel giLE := fun a b => inferInstanceAs (Decidable (a.group_index ≤ b.group_index))

/-- In-place stable sort of every group by `group_index` (lines 306-307). -/
def sortGroups (m : List (String × List SkinEntry)) : List (String × List SkinEntry) :=
  m.map (fun p => (p.1, List.insertionSort giLE p.2))

/-- `"" if group_index == 0 else f"_\x7bgroup_index\x7d"` (line 318). -/
def suffixOf (gi : Int) : String := if gi = 0 then "" else "_" ++ pyIntStr gi

/-- The event-key base for a non-`main` field (lines 328-335). -/
def voiceBase (key : String) : String :=
  if key = "drop_descrip" then "get"
  else if key = "touch" then "touch_1"
  else if key = "touch2" then "touch_2"
  else key

/-- Whether a character list begins with a given pattern. -/
def strLeads : List Char → List Char → Bool
  | [], _ => true
  | _ :: _, [] => false
  | p :: ps, c :: cs => p = c && strLeads ps cs

/-- Python `s.startswith(pre)`. -/
def pyStartsWith (s pre : String) : Bool := strLeads pre.data s.data

/-- Python `s.split("|")` on the characters of `s` (single-character
separator: every occurrence splits, empty segments preserved). -/
def splitPipe : List Char → List (List Char)
  | [] => [[]]
  | c :: t =>
    match splitPipe t with
    | [] => [[]]
    | seg :: rest => if c = '|' then [] :: seg :: rest else (c :: seg) :: rest

/-- `split_main_lines` (src/1.py lines 274-278). -/
def split_main_lines (value : String) : List String :=
  if value = "" then []
  else (((splitPipe value.data).map (fun l => pyStrip ⟨l⟩)).filter (fun l => l ≠ ""))

/-- The `for i, line in enumerate(lines, start=1)` loop (lines 324-326). -/
def insertMainLines (suffix : String) (name : Json) :
    Nat → List String → List (String × Json) → List (String × Json)
  | _, [], gm => gm
  | i, _ :: rest, gm =>
    insertMainLines suffix name (i + 1) rest (dictInsert gm ("main_" ++ pyStrNat i ++ suffix) name)

/-- The per-field loop over `word_dict.items()` (lines 319-337). -/
def emitFields (suffix : String) (name : Json) :
    List (String × Json) → List (String × Json) → List (String × Json)
  | [], gm => gm
  | (key, value) :: rest, gm =>
    match value with
    | Json.str v =>
      if pyStrip v = "" then emitFields suffix name rest gm
      else if pyStartsWith key "main" then
        emitFields suffix name rest (insertMainLines suffix name 1 (split_main_lines v) gm)
      else emitFields suffix name rest (dictInsert gm (voiceBase key ++ suffix) name)
    | _ => emitFields suffix name rest gm

/-- The per-skin loop (lines 311-337): skins with no voice-line record are
skipped; a non-dict record would raise in Python and is excluded by `wordsOKb`. -/
def emitSkins (words : List (String × Json)) :
    List SkinEntry → List (String × Json) → List (String × Json)
  | [], gm => gm
  | sk :: rest, gm =>
    match List.lookup sk.skin_id words with
    | some (Json.obj kvs) => emitSkins words rest (emitFields (suffixOf sk.group_index) sk.name kvs.toList gm)
    | some _ => emitSkins words rest gm
    | none => emitSkins words rest gm

/-- `generate_skin_voice_mapping` on already-loaded tables (file I/O elided). -/
def generate_skin_voice_mapping (template words : List (String × Json)) :
    List (String × List (String × Json)) :=
  (sortGroups (collectSkins template [])).map (fun p => (p.1, emitSkins words p.2 []))

/-- Specification-side key emission rule for one field of a voice-line record,
following the spec text: a blank or non-string value emits nothing; a field
starting with `main` is split on `|` with empty segments trimmed and emits
`main_<1-based index><suffix>` per line; `drop_descrip` emits `get<suffix>`;
`touch`/`touch2` emit `touch_1<suffix>`/`touch_2<suffix>`; any other field
emits `<field name><suffix>`. -/
def specFieldKeys (suffix key : String) (value : Json) : List String :=
  match value with
  | Json.str v =>
    if pyStrip v = "" then []
    else if pyStartsWith key "main" then
      ((split_main_lines v).enumFrom 1).map (fun p => "main_" ++ pyStrNat p.1 ++ suffix)
    else [voiceBase key ++ suffix]
  | _ => []

/-- Specification-side contribution of one skin: every emitted key mapped to
the skin's display name, in field order. -/
def specSkinPairs (words : List (String × Json)) (sk : SkinEntry) : List (String × Json) :=
  match List.lookup sk.skin_id words with
  | some (Json.obj kvs) =>
    ((kvs.toList.map (fun p => specFieldKeys (suffixOf sk.group_index) p.1 p.2)).flatten).map
      (fun k => (k, sk.name))
  | _ => []

/-- Specification-side voice mapping: for each group, insert the contributions
of its skins in group order, later skins overwriting earlier keys. -/
def spec_skin_voice_mapping (template words : List (String × Json)) :
    List (String × List (String × Json)) :=
  (sortGroups (collectSkins template [])).map
    (fun p => (p.1, insertAll [] ((p.2.map (specSkinPairs words)).flatten)))

/-- Template well-formedness: records are dicts with numeric (or absent)
`group_index`. -/
def tmplOKb (template : List (String × Json)) : Bool :=
  template.all (fun p =>
    jIsObj p.2 &&
      (match jGet p.2 "group_index" with
       | none => true
       | some (Json.num _) => true
       | some _ => false))

/-- Words-table well-formedness: every voice-line record is a dict. -/
def wordsOKb (words : List (String × Json)) : Bool := words.all (fun p => jIsObj p.2)

-- ## Orchestration (src/1.py, main, lines 366-441)

inductive InputFile where
  | shipTemplateF
  | shipWordsF
  | nameCodeF
deriving DecidableEq

inductive OutputFile where
  | alCombinedFinal
  | zumingJson
  | nameJson
  | textConfigJson
  | skinVoiceMapping
deriving DecidableEq

/-- The state of the three required input files: `none` when the file is not
found on any search path, `some d` when found and loaded as `d` (an empty `d`
models a load/parse failure, which `load_json_file` turns into `\x7b\x7d`). -/
structure MainEnv where
  shipTemplate : Option (List (String × Json))
  shipWords : Option (List (String × Json))
  nameCode : Option (List (String × Json))

/-- The set of outputs `main` writes on a run in which no transformation stage
raises: the three combined outputs need all core tables non-empty (line 400);
the auxiliary text-config output needs only the namecode table (line 428); the
voice mapping needs only the two skin files to be found (lines 285-289). -/
def gateOutputs (env : MainEnv) : List OutputFile :=
  let ships := env.shipTemplate.getD []
  let words := env.shipWords.getD []
  let nc := env.nameCode.getD []
  (if !ships.isEmpty && !words.isEmpty && !nc.isEmpty then
    [OutputFile.alCombinedFinal, OutputFile.zumingJson, OutputFile.nameJson]
  else []) ++
  (if !nc.isEmpty then [OutputFile.textConfigJson] else []) ++
  (if env.shipTemplate.isSome && env.shipWords.isSome then [OutputFile.skinVoiceMapping] else [])

/-- The computable abort sources of `generate_combined_data`: a ship key that
`int` cannot parse (`ValueError` in `sorted`), a non-dict ship record
(`.get` raises), a non-dict word record (`{**...}` raises), or the C7
`KeyError` of `process_skins` on a painting-keyed record lacking `name`.
Exact within the modelled fragment when the namecode table satisfies `cmWFb`
(then `replace_namecodes` itself never raises); `cmWFb` is a hypothesis of
the C8 theorem. -/
def combinedAborts (nc ships words : List (String × Json)) : Bool :=
  !(keysParseB ships && valsObjB ships && valsObjB words && (process_skins nc ships).isSome)

/-- The computable abort source of `generate_name_json`: it calls
`ship["painting"].lower()`, which raises on a non-string painting value.
Exact when the optional `painting_filte_map.json` is absent (the modelled
case: its absence only drops `res_list`) and `cmWFb` holds. -/
def nameJsonAborts (nc ships : List (String × Json)) : Bool :=
  !((process_ships nc ships).all (fun s => jIsStr s.painting))

/-- The voice-mapping write, last in the run: skipped when either skin file is
not found (lines 285-289) or `generate_skin_voice_mapping` raises before its
write (`voiceRaises`: a non-dict template record, a `group_index` of mixed
type reached by a sort comparison, or a referenced non-dict voice record). -/
def voicePart (env : MainEnv) (voiceRaises : Bool) : List OutputFile :=
  if env.shipTemplate.isSome && env.shipWords.isSome then
    if voiceRaises then [] else [OutputFile.skinVoiceMapping]
  else []

/-- The writes after the combined stage: the text-config output when the
namecode table is non-empty, unless `process_additional_files` raises
(`configRaises`: namecode substitution hitting an ill-formed table entry),
which also aborts the voice-mapping write after it. -/
def mainTail (env : MainEnv) (configRaises voiceRaises : Bool) : List OutputFile :=
  let nc := env.nameCode.getD []
  if !nc.isEmpty then
    if configRaises then [] else OutputFile.textConfigJson :: voicePart env voiceRaises
  else voicePart env voiceRaises

/-- The outputs `main` writes, following its control flow and its
abort-on-raise semantics: an uncaught exception ends the run, skipping the
remaining writes.  `generate_combined_data` raises before any write
(`combinedAborts`); `generate_name_json` raises after `al_combined_final.json`
and `zuming.json` are already written (`nameJsonAborts`); the raise sources of
the two later stages that depend on string contents rather than table shape
are the explicit parameters `configRaises` and `voiceRaises`. -/
def mainOutputs (env : MainEnv) (configRaises voiceRaises : Bool) : List OutputFile :=
  let ships := env.shipTemplate.getD []
  let words := env.shipWords.getD []
  let nc := env.nameCode.getD []
  if !ships.isEmpty && !words.isEmpty && !nc.isEmpty then
    if combinedAborts nc ships words then []
    else if nameJsonAborts nc ships then [OutputFile.alCombinedFinal, OutputFile.zumingJson]
    else [OutputFile.alCombinedFinal, OutputFile.zumingJson, OutputFile.nameJson] ++
      mainTail env configRaises voiceRaises
  else mainTail env configRaises voiceRaises

/-- The inputs each output depends on. -/
def outDeps : OutputFile → List InputFile
  | .alCombinedFinal => [.shipTemplateF, .shipWordsF, .nameCodeF]
  | .zumingJson => [.shipTemplateF, .shipWordsF, .nameCodeF]
  | .nameJson => [.shipTemplateF, .shipWordsF, .nameCodeF]
  | .textConfigJson => [.nameCodeF]
  | .skinVoiceMapping => [.shipTemplateF, .shipWordsF]

/-- An input is fully usable when its file is found and loads non-empty. -/
def inputOK (env : MainEnv) : InputFile → Bool
  | .shipTemplateF => match env.shipTemplate with | some d => !d.isEmpty | none => false
  | .shipWordsF => match env.shipWords with | some d => !d.isEmpty | none => false
  | .nameCodeF => match env.nameCode with | some d => !d.isEmpty | none => false

-- ## Story dialogue structurer

def stepLEb (a b : String × Json) : Bool :=
  match pyIntOfStr a.1, pyIntOfStr b.1 with
  | some m, some n => m ≤ n
  | some _, none => true
  | none, some _ => false
  | none, none => true

def stepLE (a b : String × Json) : Prop := stepLEb a b = true

instance : DecidableRel stepLE := fun a b => inferInstanceAs (Decidable (stepLEb a b = true))

/-- Modelled from the spec: the story dialogue structurer that produces
`story_dialogues_structured.json` is not part of src/ (only the spec describes
it).  A story entry's script sequence is the entry itself when it is a
sequence, else its `scripts` sub-field; keyed steps are taken in ascending
numeric order of step key with non-numeric keys after all numeric ones. -/
def scriptSeq (entry : Json) : List Json :=
  match entry with
  | Json.arr xs => xs.toList
  | Json.obj kvs =>
    match List.lookup "scripts" kvs.toList with
    | some (Json.arr xs) => xs.toList
    | some (Json.obj skvs) => (List.insertionSort stepLE skvs.toList).map (fun p => p.2)
    | _ => []
  | _ => []

/-- Modelled from the spec: the `say` text of a script step, when present and
non-empty, with namecode substitution applied. -/
def sayText (cm : CodeMapping) (step : Json) : Option String :=
  match step with
  | Json.obj kvs =>
    match List.lookup "say" kvs.toList with
    | some (Json.str s) => if s = "" then none else some ⟨substChars cm s.data⟩
    | _ => none
  | _ => none

/-- Modelled from the spec: all dialogue lines extracted from a story entry. -/
def storyLines (cm : CodeMapping) (entry : Json) : List String :=
  (scriptSeq entry).filterMap (sayText cm)

def storyKeyLE (a b : String × List String) : Prop := a.1 ≤ b.1

instance : DecidableRel storyKeyLE := fun a b => inferInstanceAs (Decidable (a.1 ≤ b.1))

/-- Modelled from the spec: the episodes of `story_dialogues_structured.json`,
keyed by story key with their extracted dialogue lines; stories yielding zero
extracted lines are dropped entirely, episodes are sorted by story key. -/
def story_dialogues_structured (cm : CodeMapping) (stories : List (String × Json)) :
    List (String × List String) :=
  List.insertionSort storyKeyLE
    (stories.filterMap (fun p =>
      match storyLines cm p.2 with
      | [] => none
      | ls => some (p.1, ls)))

-- ## Lemmas: decimal printing

theorem natDigsF_congr : ∀ (f1 f2 n : Nat), n ≤ f1 → n ≤ f2 → natDigsF f1 n = natDigsF f2 n := by
  intro f1
  induction f1 with
  | zero =>
    intro f2 n h1 h2
    have h0 : n = 0 := Nat.le_zero.mp h1
    subst h0
    cases f2 with
    | zero => rfl
    | succ g => simp [natDigsF]
  | succ f ih =>
    intro f2 n h1 h2
    by_cases h10 : n < 10
    · cases f2 with
      | zero =>
        have h0 : n = 0 := Nat.le_zero.mp h2
        subst h0
        simp [natDigsF]
      | succ g => simp [natDigsF, h10]
    · cases f2 with
      | zero => omega
      | succ g =>
        have hdiv : n / 10 < n := Nat.div_lt_self (by omega) (by norm_num)
        have e1 : natDigsF (f + 1) n = natDigsF f (n / 10) ++ [Nat.digitChar (n % 10)] := by
          simp [natDigsF, h10]
        have e2 : natDigsF (g + 1) n = natDigsF g (n / 10) ++ [Nat.digitChar (n % 10)] := by
          simp [natDigsF, h10]
        rw [e1, e2, ih g (n / 10) (by omega) (by omega)]

theorem natDigsF_adequate (f n : Nat) (h : n ≤ f) : natDigsF f n = natDigs n :=
  natDigsF_congr f n n h Nat.le.refl

theorem natDigs_small (n : Nat) (h : n < 10) : natDigs n = [Nat.digitChar n] := by
  cases n with
  | zero => rfl
  | succ m => simp [natDigs, natDigsF, h]

theorem natDigs_large (n : Nat) (h : 10 ≤ n) : natDigs n = natDigs (n / 10) ++ [Nat.digitChar (n % 10)] := by
  cases n with
  | zero => omega
  | succ m =>
    have h10 : ¬ m + 1 < 10 := by omega
    show natDigsF (m + 1) (m + 1) = _
    rw [show natDigsF (m + 1) (m + 1) = natDigsF m ((m + 1) / 10) ++ [Nat.digitChar ((m + 1) % 10)] from by
      simp [natDigsF, h10]]
    rw [natDigsF_adequate m ((m + 1) / 10) (by
      have : (m + 1) / 10 < m + 1 := Nat.div_lt_self (by omega) (by norm_num)
      omega)]

theorem digitChar_toNat (n : Nat) (h : n < 10) : (Nat.digitChar n).toNat = 48 + n := by
  interval_cases n <;> rfl

theorem digitsVal_append_one (a : List Char) (c : Char) :
    digitsVal (a ++ [c]) = 10 * digitsVal a + (c.toNat - 48) := by
  unfold digitsVal
  rw [List.foldl_append]
  rfl

theorem digitsVal_natDigs : ∀ n, digitsVal (natDigs n) = n := by
  intro n
  induction n using Nat.strong_induction_on with
  | _ n ih =>
    by_cases h : n < 10
    · rw [natDigs_small n h]
      show 10 * 0 + ((Nat.digitChar n).toNat - 48) = n
      rw [digitChar_toNat n h]
      omega
    · rw [natDigs_large n (by omega), digitsVal_append_one,
        ih (n / 10) (Nat.div_lt_self (by omega) (by norm_num)),
        digitChar_toNat (n % 10) (Nat.mod_lt _ (by norm_num))]
      omega

theorem pyStrNat_inj : Function.Injective pyStrNat := by
  intro a b h
  have hd : natDigs a = natDigs b := congrArg String.data h
  have hv := congrArg digitsVal hd
  rwa [digitsVal_natDigs, digitsVal_natDigs] at hv

-- ## Lemmas: the placeholder matcher

theorem takeWhile_all_append {α : Type} (p : α → Bool) :
    ∀ (ds : List α) (c : α) (t : List α), (∀ x ∈ ds, p x = true) → p c = false →
      (ds ++ c :: t).takeWhile p = ds := by
  intro ds
  induction ds with
  | nil =>
    intro c t _ hc
    simp [List.takeWhile_cons, hc]
  | cons d ds ih =>
    intro c t h hc
    have hd : p d = true := h d (by simp)
    simp [List.takeWhile_cons, hd, ih c t (fun x hx => h x (by simp [hx])) hc]

theorem dropWhile_all_append {α : Type} (p : α → Bool) :
    ∀ (ds : List α) (c : α) (t : List α), (∀ x ∈ ds, p x = true) → p c = false →
      (ds ++ c :: t).dropWhile p = c :: t := by
  intro ds
  induction ds with
  | nil =>
    intro c t _ hc
    simp [List.dropWhile_cons, hc]
  | cons d ds ih =>
    intro c t h hc
    have hd : p d = true := h d (by simp)
    simp only [List.cons_append, List.dropWhile_cons, hd]
    exact ih c t (fun x hx => h x (by simp [hx])) hc

theorem matchPH_sound {l ds rest : List Char} (h : matchPH l = some (ds, rest)) :
    l = phText ds ++ rest ∧ ds ≠ [] ∧ (∀ c ∈ ds, c.isDigit = true) := by
  unfold matchPH at h
  split at h
  case isFalse => cases h
  case isTrue ht =>
    split at h
    case h_2 => cases h
    case h_1 c rest2 heq =>
      split at h
      case isFalse => cases h
      case isTrue hc =>
        obtain ⟨hcr, hne⟩ := hc
        injection h with h'
        injection h' with h1 h2
        subst h1 h2 hcr
        refine ⟨?_, hne, fun x hx => List.mem_takeWhile_imp hx⟩
        have hsplit : (l.drop 10).takeWhile Char.isDigit ++ (l.drop 10).dropWhile Char.isDigit = l.drop 10 :=
          List.takeWhile_append_dropWhile ..
        calc l = l.take 10 ++ l.drop 10 := (List.take_append_drop 10 l).symm
          _ = phMark ++ l.drop 10 := by rw [ht]
          _ = phMark ++ ((l.drop 10).takeWhile Char.isDigit ++ (l.drop 10).dropWhile Char.isDigit) := by
              rw [hsplit]
          _ = phText ((l.drop 10).takeWhile Char.isDigit) ++ rest2 := by
              rw [heq, phText]
              simp

theorem matchPH_complete (ds tail : List Char) (hne : ds ≠ [])
    (hdig : ∀ c ∈ ds, c.isDigit = true) :
    matchPH (phText ds ++ tail) = some (ds, tail) := by
  have hassoc : phText ds ++ tail = phMark ++ (ds ++ rbr :: tail) := by
    simp [phText]
  have hrbr : rbr.isDigit = false := by decide
  have htake : (phText ds ++ tail).take 10 = phMark := by
    rw [hassoc, show (10 : Nat) = phMark.length from rfl, List.take_left]
  have hdrop : (phText ds ++ tail).drop 10 = ds ++ rbr :: tail := by
    rw [hassoc, show (10 : Nat) = phMark.length from rfl, List.drop_left]
  unfold matchPH
  rw [if_pos htake, hdrop, takeWhile_all_append Char.isDigit ds rbr tail hdig hrbr,
    dropWhile_all_append Char.isDigit ds rbr tail hdig hrbr]
  simp [hne]

theorem matchPH_length {l ds rest : List Char} (h : matchPH l = some (ds, rest)) :
    rest.length + 12 ≤ l.length := by
  obtain ⟨hl, hne, _⟩ := matchPH_sound h
  have hpos : 0 < ds.length := List.length_pos.mpr hne
  rw [hl]
  simp [phText, phMark]
  omega

-- ## Lemmas: substitution scanner equations

theorem substFuel_congr (cm : CodeMapping) :
    ∀ (f1 f2 : Nat) (l : List Char), l.length ≤ f1 → l.length ≤ f2 →
      substFuel cm f1 l = substFuel cm f2 l := by
  intro f1
  induction f1 with
  | zero =>
    intro f2 l h1 _
    have h0 : l = [] := List.eq_nil_of_length_eq_zero (by omega)
    subst h0
    cases f2 with
    | zero => rfl
    | succ g => rfl
  | succ f ih =>
    intro f2 l h1 h2
    cases l with
    | nil =>
      cases f2 with
      | zero => rfl
      | succ g => rfl
    | cons c t =>
      cases f2 with
      | zero => simp at h2
      | succ g =>
        cases hm : matchPH (c :: t) with
        | some p =>
          have hlen := matchPH_length hm
          simp only [substFuel, hm]
          rw [ih g p.2 (by simp at h1 hlen ⊢; omega) (by simp at h2 hlen ⊢; omega)]
        | none =>
          simp only [substFuel, hm]
          rw [ih g t (by simp at h1 ⊢; omega) (by simp at h2 ⊢; omega)]

theorem substChars_nil (cm : CodeMapping) : substChars cm [] = [] := rfl

theorem substChars_eq_match (cm : CodeMapping) {l ds rest : List Char}
    (h : matchPH l = some (ds, rest)) :
    substChars cm l = resolvePH cm ds ++ substChars cm rest := by
  cases l with
  | nil =>
    have : matchPH ([] : List Char) = none := by decide
    rw [this] at h
    cases h
  | cons c t =>
    show substFuel cm (t.length + 1) (c :: t) = _
    simp only [substFuel, h]
    have hlen := matchPH_length h
    simp only [List.length_cons] at hlen
    rw [substFuel_congr cm t.length rest.length rest (by omega) Nat.le.refl]
    rfl

theorem substChars_cons_nomatch (cm : CodeMapping) {c : Char} {t : List Char}
    (h : matchPH (c :: t) = none) :
    substChars cm (c :: t) = c :: substChars cm t := by
  show substFuel cm (t.length + 1) (c :: t) = _
  simp only [substFuel, h]
  rfl

theorem phCodesF_congr :
    ∀ (f1 f2 : Nat) (l : List Char), l.length ≤ f1 → l.length ≤ f2 →
      phCodesF f1 l = phCodesF f2 l := by
  intro f1
  induction f1 with
  | zero =>
    intro f2 l h1 _
    have h0 : l = [] := List.eq_nil_of_length_eq_zero (by omega)
    subst h0
    cases f2 with
    | zero => rfl
    | succ g => rfl
  | succ f ih =>
    intro f2 l h1 h2
    cases l with
    | nil =>
      cases f2 with
      | zero => rfl
      | succ g => rfl
    | cons c t =>
      cases f2 with
      | zero => simp at h2
      | succ g =>
        cases hm : matchPH (c :: t) with
        | some p =>
          have hlen := matchPH_length hm
          simp only [phCodesF, hm]
          rw [ih g p.2 (by simp at h1 hlen ⊢; omega) (by simp at h2 hlen ⊢; omega)]
        | none =>
          simp only [phCodesF, hm]
          rw [ih g t (by simp at h1 ⊢; omega) (by simp at h2 ⊢; omega)]

theorem phCodes_match {l ds rest : List Char} (h : matchPH l = some (ds, rest)) :
    phCodes l = ds :: phCodes rest := by
  cases l with
  | nil =>
    have : matchPH ([] : List Char) = none := by decide
    rw [this] at h
    cases h
  | cons c t =>
    show phCodesF (t.length + 1) (c :: t) = _
    simp only [phCodesF, h]
    have hlen := matchPH_length h
    simp only [List.length_cons] at hlen
    rw [phCodesF_congr t.length rest.length rest (by omega) Nat.le.refl]
    rfl

theorem phCodes_cons_nomatch {c : Char} {t : List Char} (h : matchPH (c :: t) = none) :
    phCodes (c :: t) = phCodes t := by
  show phCodesF (t.length + 1) (c :: t) = _
  simp only [phCodesF, h]
  rfl

theorem findPH_length :
    ∀ {l pre ds rest : List Char}, findPH l = some (pre, ds, rest) → rest.length < l.length := by
  intro l
  induction l with
  | nil => intro pre ds rest h; cases h
  | cons c t ih =>
    intro pre ds rest h
    simp only [findPH] at h
    cases hm : matchPH (c :: t) with
    | some p =>
      rw [hm] at h
      injection h with h'
      have hlen := matchPH_length hm
      cases h'
      simp only [List.length_cons] at hlen ⊢
      omega
    | none =>
      rw [hm] at h
      cases hf : findPH t with
      | none => rw [hf] at h; cases h
      | some q =>
        obtain ⟨p1, p2, p3⟩ := q
        rw [hf] at h
        injection h with h'
        have hlt := ih hf
        cases h'
        simp only [List.length_cons] at hlt ⊢
        omega

theorem substSpecF_congr (cm : CodeMapping) :
    ∀ (f1 f2 : Nat) (l : List Char), l.length ≤ f1 → l.length ≤ f2 →
      substSpecF cm f1 l = substSpecF cm f2 l := by
  intro f1
  induction f1 with
  | zero =>
    intro f2 l h1 _
    have h0 : l = [] := List.eq_nil_of_length_eq_zero (by omega)
    subst h0
    cases f2 with
    | zero => rfl
    | succ g =>
      show ([] : List Char) = substSpecF cm (g + 1) []
      simp only [substSpecF]
      rfl
  | succ f ih =>
    intro f2 l h1 h2
    cases f2 with
    | zero =>
      have h0 : l = [] := List.eq_nil_of_length_eq_zero (by omega)
      subst h0
      simp only [substSpecF]
      rfl
    | succ g =>
      cases hf : findPH l with
      | none => simp only [substSpecF, hf]
      | some q =>
        obtain ⟨pre, ds, rest⟩ := q
        have hlen := findPH_length hf
        simp only [substSpecF, hf]
        rw [ih g rest (by omega) (by omega)]

theorem substSpec_none (cm : CodeMapping) {l : List Char} (h : findPH l = none) :
    substSpec cm l = l := by
  cases l with
  | nil => rfl
  | cons c t =>
    show substSpecF cm (t.length + 1) (c :: t) = _
    simp only [substSpecF, h]

theorem substSpec_some (cm : CodeMapping) {l pre ds rest : List Char}
    (h : findPH l = some (pre, ds, rest)) :
    substSpec cm l = pre ++ resolvePH cm ds ++ substSpec cm rest := by
  cases l with
  | nil => cases h
  | cons c t =>
    show substSpecF cm (t.length + 1) (c :: t) = _
    simp only [substSpecF, h]
    have hlen := findPH_length h
    simp only [List.length_cons] at hlen
    rw [substSpecF_congr cm t.length rest.length rest (by omega) Nat.le.refl]
    rfl

theorem substChars_of_findPH_none (cm : CodeMapping) :
    ∀ (l : List Char), findPH l = none → substChars cm l = l := by
  intro l
  induction l with
  | nil => intro _; rfl
  | cons c t ih =>
    intro h
    simp only [findPH] at h
    cases hm : matchPH (c :: t) with
    | some p =>
      rw [hm] at h
      cases h
    | none =>
      rw [hm] at h
      cases hf : findPH t with
      | some q => rw [hf] at h; cases h
      | none =>
        rw [substChars_cons_nomatch cm hm, ih hf]

theorem substChars_eq_substSpec (cm : CodeMapping) (l : List Char) :
    substChars cm l = substSpec cm l := by
  have key : ∀ (n : Nat) (l : List Char), l.length ≤ n → substChars cm l = substSpec cm l := by
    intro n
    induction n with
    | zero =>
      intro l h
      have h0 : l = [] := List.eq_nil_of_length_eq_zero (by omega)
      subst h0
      rfl
    | succ n ihn =>
      intro l hlen
      cases l with
      | nil => rfl
      | cons c t =>
        cases hm : matchPH (c :: t) with
        | some p =>
          obtain ⟨ds, rest⟩ := p
          have hf : findPH (c :: t) = some ([], ds, rest) := by
            simp only [findPH]
            rw [hm]
          rw [substChars_eq_match cm hm, substSpec_some cm hf, List.nil_append]
          have hl := matchPH_length hm
          simp only [List.length_cons] at hl hlen
          rw [ihn rest (by omega)]
        | none =>
          rw [substChars_cons_nomatch cm hm]
          cases hf : findPH t with
          | none =>
            have hf2 : findPH (c :: t) = none := by
              simp only [findPH]
              rw [hm, hf]
              rfl
            rw [substSpec_none cm hf2, substChars_of_findPH_none cm t hf]
          | some q =>
            obtain ⟨pre, ds, rest⟩ := q
            have hf2 : findPH (c :: t) = some (c :: pre, ds, rest) := by
              simp only [findPH]
              rw [hm, hf]
              rfl
            rw [substSpec_some cm hf2]
            simp only [List.length_cons] at hlen
            rw [ihn t (by omega), substSpec_some cm hf]
            simp
  exact key l.length l Nat.le.refl

theorem substChars_of_unresolved (cm : CodeMapping) :
    ∀ (l : List Char), (∀ d ∈ phCodes l, cmName cm ⟨d⟩ = none) → substChars cm l = l := by
  have key : ∀ (n : Nat) (l : List Char), l.length ≤ n →
      (∀ d ∈ phCodes l, cmName cm ⟨d⟩ = none) → substChars cm l = l := by
    intro n
    induction n with
    | zero =>
      intro l h _
      have h0 : l = [] := List.eq_nil_of_length_eq_zero (by omega)
      subst h0
      rfl
    | succ n ihn =>
      intro l hlen hres
      cases l with
      | nil => rfl
      | cons c t =>
        cases hm : matchPH (c :: t) with
        | none =>
          rw [substChars_cons_nomatch cm hm]
          rw [phCodes_cons_nomatch hm] at hres
          simp only [List.length_cons] at hlen
          rw [ihn t (by omega) hres]
        | some p =>
          obtain ⟨ds, rest⟩ := p
          rw [substChars_eq_match cm hm]
          rw [phCodes_match hm] at hres
          have hds : cmName cm ⟨ds⟩ = none := hres ds (by simp)
          have hrest : ∀ d ∈ phCodes rest, cmName cm ⟨d⟩ = none :=
            fun d hd => hres d (by simp [hd])
          have hl := matchPH_length hm
          simp only [List.length_cons] at hl hlen
          rw [ihn rest (by omega) hrest]
          obtain ⟨hsplit, _, _⟩ := matchPH_sound hm
          rw [hsplit]
          unfold resolvePH
          rw [hds]
  exact fun l h => key l.length l Nat.le.refl h

-- ## Lemmas: structural action of replace_namecodes

theorem replaceArr_ofList (cm : CodeMapping) :
    ∀ (xs : JsonArr), replaceArr cm xs = JsonArr.ofList (xs.toList.map (replace_namecodes cm))
  | .nil => rfl
  | .cons h t => by
    simp only [replaceArr, JsonArr.toList, List.map_cons, JsonArr.ofList,
      replaceArr_ofList cm t]

theorem replaceObj_ofList (cm : CodeMapping) :
    ∀ (o : JsonObj),
      replaceObj cm o = JsonObj.ofList (o.toList.map (fun p => (p.1, replace_namecodes cm p.2)))
  | .nil => rfl
  | .cons k v t => by
    simp only [replaceObj, JsonObj.toList, List.map_cons, JsonObj.ofList,
      replaceObj_ofList cm t]

-- ## Lemmas: dicts built by sequential insertion

theorem dictInsert_append {β : Type} :
    ∀ (d : List (String × β)) (k : String) (v : β), k ∉ d.map Prod.fst →
      dictInsert d k v = d ++ [(k, v)] := by
  intro d
  induction d with
  | nil => intro k v _; rfl
  | cons p t ih =>
    intro k v h
    obtain ⟨k0, v0⟩ := p
    simp only [List.map_cons, List.mem_cons] at h
    push_neg at h
    have hne : k0 ≠ k := Ne.symm h.1
    simp only [dictInsert, if_neg hne, List.cons_append]
    rw [ih k v h.2]

theorem insertAll_of_fresh {β : Type} :
    ∀ (ps d : List (String × β)), (ps.map Prod.fst).Nodup →
      (∀ k ∈ ps.map Prod.fst, k ∉ d.map Prod.fst) →
      insertAll d ps = d ++ ps := by
  intro ps
  induction ps with
  | nil => intro d _ _; simp [insertAll]
  | cons p t ih =>
    intro d hnd hfresh
    obtain ⟨k, v⟩ := p
    simp only [List.map_cons, List.nodup_cons] at hnd
    have hk : k ∉ d.map Prod.fst := hfresh k (by simp)
    have step : insertAll d ((k, v) :: t) = insertAll (dictInsert d k v) t := rfl
    rw [step, dictInsert_append d k v hk,
      ih (d ++ [(k, v)]) hnd.2 (fun x hx => by
        rw [List.map_append, List.mem_append]
        push_neg
        refine ⟨hfresh x (by simp [hx]), ?_⟩
        simp only [List.map_cons, List.map_nil, List.mem_singleton]
        intro hxk
        subst hxk
        exact hnd.1 hx)]
    simp

theorem mkDict_self {β : Type} (ps : List (String × β)) (h : (ps.map Prod.fst).Nodup) :
    mkDict ps = ps := by
  have := insertAll_of_fresh ps [] h (by simp)
  simpa [mkDict] using this

theorem lookup_mem {β : Type} :
    ∀ {l : List (String × β)} {a : String} {b : β}, List.lookup a l = some b → (a, b) ∈ l := by
  intro l
  induction l with
  | nil => intro a b h; cases h
  | cons p t ih =>
    intro a b h
    obtain ⟨k, v⟩ := p
    rw [List.lookup_cons] at h
    cases hab : (a == k) with
    | true =>
      rw [hab] at h
      injection h with h'
      have ha : a = k := by simpa using hab
      simp [ha, h']
    | false =>
      rw [hab] at h
      exact List.mem_cons_of_mem _ (ih h)

theorem lookup_of_mem_nodup {β : Type} :
    ∀ {l : List (String × β)} {a : String} {b : β}, (l.map Prod.fst).Nodup → (a, b) ∈ l →
      List.lookup a l = some b := by
  intro l
  induction l with
  | nil => intro a b _ h; cases h
  | cons p t ih =>
    intro a b hnd hmem
    obtain ⟨k, v⟩ := p
    simp only [List.map_cons, List.nodup_cons] at hnd
    rcases List.mem_cons.mp hmem with heq | htail
    · injection heq with h1 h2
      subst h1 h2
      simp [List.lookup_cons]
    · have hak : a ≠ k := by
        intro hak
        subst hak
        exact hnd.1 (List.mem_map.mpr ⟨(a, b), htail, rfl⟩)
      rw [List.lookup_cons]
      have : (a == k) = false := by simpa using hak
      rw [this]
      exact ih hnd.2 htail

theorem lookup_iff_mem {β : Type} {l : List (String × β)} (h : (l.map Prod.fst).Nodup)
    (a : String) (b : β) : List.lookup a l = some b ↔ (a, b) ∈ l :=
  ⟨lookup_mem, lookup_of_mem_nodup h⟩

theorem lookup_swap_iff {l : List (String × String)} (h1 : (l.map Prod.fst).Nodup)
    (h2 : (l.map Prod.snd).Nodup) (a b : String) :
    List.lookup a l = some b ↔ List.lookup b (l.map (fun p => (p.2, p.1))) = some a := by
  have hswap : ((l.map (fun p => (p.2, p.1))).map Prod.fst).Nodup := by
    rw [List.map_map]
    exact h2
  rw [lookup_iff_mem h1, lookup_iff_mem hswap]
  constructor
  · intro hm
    exact List.mem_map.mpr ⟨(a, b), hm, rfl⟩
  · intro hm
    rcases List.mem_map.mp hm with ⟨p, hp, hpe⟩
    obtain ⟨p1, p2⟩ := p
    injection hpe with e1 e2
    subst e1 e2
    exact hp

-- ## Claim C1

/-- C1: for every JSON-compatible value and every code mapping,
`replace_namecodes` replaces each occurrence of the pattern
`\x7bnamecode:<digits>\x7d` inside a string with the `name` field of the code
mapping entry for those digits; when no entry (or no name) exists for the
digits, the full placeholder text is preserved unchanged; mappings are
rewritten value-wise with keys untouched, sequences element-wise, and every
non-string scalar is returned unchanged.  The string clause is stated against
the specification-side `substSpec` (find each occurrence in turn, replace a
resolvable code by its name, keep the full placeholder otherwise), which also
covers the preservation of unmatched placeholders through `resolvePH`. -/
theorem c1_replace_namecodes_characterization (cm : CodeMapping) (hwf : cmWFb cm = true) :
    (∀ s : String, replace_namecodes cm (Json.str s) = Json.str ⟨substSpec cm s.data⟩)
    ∧ (∀ kvs : JsonObj, replace_namecodes cm (Json.obj kvs) =
        Json.obj (JsonObj.ofList (kvs.toList.map (fun p => (p.1, replace_namecodes cm p.2)))))
    ∧ (∀ xs : JsonArr, replace_namecodes cm (Json.arr xs) =
        Json.arr (JsonArr.ofList (xs.toList.map (replace_namecodes cm))))
    ∧ (∀ n : Int, replace_namecodes cm (Json.num n) = Json.num n)
    ∧ (∀ b : Bool, replace_namecodes cm (Json.bool b) = Json.bool b)
    ∧ replace_namecodes cm Json.null = Json.null := by
  refine ⟨fun s => ?_, fun kvs => ?_, fun xs => ?_, fun n => rfl, fun b => rfl, rfl⟩
  · show Json.str ⟨substChars cm s.data⟩ = Json.str ⟨substSpec cm s.data⟩
    rw [substChars_eq_substSpec]
  · show Json.obj (replaceObj cm kvs) = _
    rw [replaceObj_ofList]
  · show Json.arr (replaceArr cm xs) = _
    rw [replaceArr_ofList]

/-- Witness for C1 at a concrete table with one named entry. -/
theorem c1_witness :
    cmWFb [("5", Json.obj (JsonObj.cons "name" (Json.str "Foo") JsonObj.nil))] = true
    ∧ replace_namecodes [("5", Json.obj (JsonObj.cons "name" (Json.str "Foo") JsonObj.nil))]
        (Json.str "\x7bnamecode:5\x7d") =
      Json.str ⟨substSpec [("5", Json.obj (JsonObj.cons "name" (Json.str "Foo") JsonObj.nil))]
        "\x7bnamecode:5\x7d".data⟩ :=
  ⟨by decide,
    (c1_replace_namecodes_characterization
      [("5", Json.obj (JsonObj.cons "name" (Json.str "Foo") JsonObj.nil))] (by decide)).1
      "\x7bnamecode:5\x7d"⟩

-- ## Claim C6

/-- C6 counterexample: the claim states idempotence on every input free of
unresolved placeholders.  The input `\x7bnamecode:1\x7d` has all of its
placeholders resolvable (code 1 maps to a named entry), yet applying the
substitution twice differs from applying it once, because the name substituted
for code 1 itself contains the resolvable placeholder `\x7bnamecode:2\x7d`,
which the second pass then rewrites. -/
theorem c6_counterexample :
    ((phCodes "\x7bnamecode:1\x7d".data).all
        (fun d =>
          (cmName [("1", Json.obj (JsonObj.cons "name" (Json.str "\x7bnamecode:2\x7d") JsonObj.nil)),
                   ("2", Json.obj (JsonObj.cons "name" (Json.str "X") JsonObj.nil))] ⟨d⟩).isSome) = true)
    ∧ replace_namecodes
        [("1", Json.obj (JsonObj.cons "name" (Json.str "\x7bnamecode:2\x7d") JsonObj.nil)),
         ("2", Json.obj (JsonObj.cons "name" (Json.str "X") JsonObj.nil))]
        (replace_namecodes
          [("1", Json.obj (JsonObj.cons "name" (Json.str "\x7bnamecode:2\x7d") JsonObj.nil)),
           ("2", Json.obj (JsonObj.cons "name" (Json.str "X") JsonObj.nil))]
          (Json.str "\x7bnamecode:1\x7d")) ≠
      replace_namecodes
        [("1", Json.obj (JsonObj.cons "name" (Json.str "\x7bnamecode:2\x7d") JsonObj.nil)),
         ("2", Json.obj (JsonObj.cons "name" (Json.str "X") JsonObj.nil))]
        (Json.str "\x7bnamecode:1\x7d") := by
  constructor
  · decide
  · decide

/-- C6 (amended): `replace_namecodes` applied to a string is idempotent
whenever its single-pass result contains no resolvable placeholder (in
particular whenever the substituted names introduce none); and a string all of
whose placeholders lack a matching named code mapping entry is returned
byte-identical to the input. -/
theorem c6_idempotent_amended (cm : CodeMapping) (s : String) (hwf : cmWFb cm = true) :
    ((∀ d ∈ phCodes (substChars cm s.data), cmName cm ⟨d⟩ = none) →
      replace_namecodes cm (replace_namecodes cm (Json.str s)) = replace_namecodes cm (Json.str s))
    ∧ ((∀ d ∈ phCodes s.data, cmName cm ⟨d⟩ = none) →
      replace_namecodes cm (Json.str s) = Json.str s) := by
  constructor
  · intro h
    show Json.str ⟨substChars cm (substChars cm s.data)⟩ = Json.str ⟨substChars cm s.data⟩
    exact congrArg (fun l => Json.str ⟨l⟩) (substChars_of_unresolved cm _ h)
  · intro h
    show Json.str ⟨substChars cm s.data⟩ = Json.str s
    exact congrArg (fun l => Json.str ⟨l⟩) (substChars_of_unresolved cm s.data h)

/-- Witness for C6 at the empty table and an unmatched placeholder. -/
theorem c6_witness :
    (∀ d ∈ phCodes "\x7bnamecode:9\x7d".data, cmName [] ⟨d⟩ = none)
    ∧ replace_namecodes [] (Json.str "\x7bnamecode:9\x7d") = Json.str "\x7bnamecode:9\x7d" :=
  ⟨by decide, (c6_idempotent_amended [] "\x7bnamecode:9\x7d" (by decide)).2 (by decide)⟩

-- ## Claim C10

/-- C10: `replace_namecodes` performs a single substitution pass: the
replacement text is never re-scanned.  Substituting a placeholder whose entry
resolves to an arbitrary name `n` yields exactly the characters of `n` (in
particular any `\x7bnamecode:<digits>\x7d` token inside `n` verbatim, whether
or not the table has an entry for it), and scanning resumes after the match. -/
theorem c10_no_rescan (cm : CodeMapping) (d : List Char) (n : String) (tail : List Char)
    (hwf : cmWFb cm = true) (hne : d ≠ []) (hdig : d.all Char.isDigit = true)
    (hname : cmName cm ⟨d⟩ = some n) :
    substChars cm (phText d ++ tail) = n.data ++ substChars cm tail := by
  have hm := matchPH_complete d tail hne (List.all_eq_true.mp hdig)
  rw [substChars_eq_match cm hm]
  unfold resolvePH
  rw [hname]

/-- Witness for C10: code 1 resolves to a name that is itself the placeholder
for code 2, which has a named entry, and the output keeps it verbatim. -/
theorem c10_witness :
    cmName [("1", Json.obj (JsonObj.cons "name" (Json.str "\x7bnamecode:2\x7d") JsonObj.nil)),
            ("2", Json.obj (JsonObj.cons "name" (Json.str "X") JsonObj.nil))] "2" = some "X"
    ∧ substChars
        [("1", Json.obj (JsonObj.cons "name" (Json.str "\x7bnamecode:2\x7d") JsonObj.nil)),
         ("2", Json.obj (JsonObj.cons "name" (Json.str "X") JsonObj.nil))]
        (phText ['1'] ++ []) =
      "\x7bnamecode:2\x7d".data ++ substChars
        [("1", Json.obj (JsonObj.cons "name" (Json.str "\x7bnamecode:2\x7d") JsonObj.nil)),
         ("2", Json.obj (JsonObj.cons "name" (Json.str "X") JsonObj.nil))] [] :=
  ⟨by decide,
    c10_no_rescan
      [("1", Json.obj (JsonObj.cons "name" (Json.str "\x7bnamecode:2\x7d") JsonObj.nil)),
       ("2", Json.obj (JsonObj.cons "name" (Json.str "X") JsonObj.nil))]
      ['1'] "\x7bnamecode:2\x7d" [] (by decide) (by decide) (by decide) (by decide)⟩

-- ## Lemmas: process_ships loop shape

theorem processShipsLoop_map_id (cm : CodeMapping) :
    ∀ (l : List (String × Json)) (idx : Nat) (seen : List String),
      (processShipsLoop cm idx seen l).map (fun s => s.id) = l.map Prod.fst := by
  intro l
  induction l with
  | nil => intro idx seen; rfl
  | cons p t ih =>
    intro idx seen
    obtain ⟨k, v⟩ := p
    simp only [processShipsLoop, List.map_cons]
    rw [ih]

theorem processShipsLoop_map_id2 (cm : CodeMapping) :
    ∀ (l : List (String × Json)) (idx : Nat) (seen : List String),
      (processShipsLoop cm idx seen l).map (fun s => s.id2) =
        (List.range l.length).map (fun i => pyStrNat (idx + i)) := by
  intro l
  induction l with
  | nil => intro idx seen; rfl
  | cons p t ih =>
    intro idx seen
    obtain ⟨k, v⟩ := p
    simp only [processShipsLoop, List.map_cons, List.length_cons]
    have hfe : (fun i => pyStrNat (idx + 1 + i)) = ((fun i => pyStrNat (idx + i)) ∘ Nat.succ) :=
      funext (fun a => congrArg pyStrNat (by omega))
    rw [ih, List.range_succ_eq_map, List.map_cons, List.map_map, hfe]
    rfl

-- ## Lemmas: inverse lookup tables

theorem inverse_tables (pairs : List (String × String))
    (h1 : (pairs.map Prod.fst).Nodup) (h2 : (pairs.map Prod.snd).Nodup) :
    (∀ a b, List.lookup a (mkDict pairs) = some b ↔
      List.lookup b (mkDict (pairs.map (fun p => (p.2, p.1)))) = some a)
    ∧ (∀ p ∈ pairs, List.lookup p.1 (mkDict pairs) = some p.2 ∧
        List.lookup p.2 (mkDict (pairs.map (fun p => (p.2, p.1)))) = some p.1) := by
  have hswapkeys : ((pairs.map (fun p => (p.2, p.1))).map Prod.fst).Nodup := by
    rw [List.map_map]
    exact h2
  have e1 : mkDict pairs = pairs := mkDict_self pairs h1
  have e2 : mkDict (pairs.map (fun p => (p.2, p.1))) = pairs.map (fun p => (p.2, p.1)) :=
    mkDict_self _ hswapkeys
  rw [e1, e2]
  refine ⟨fun a b => lookup_swap_iff h1 h2 a b, fun p hp => ?_⟩
  obtain ⟨a, b⟩ := p
  exact ⟨lookup_of_mem_nodup h1 hp,
    lookup_of_mem_nodup hswapkeys (List.mem_map.mpr ⟨(a, b), hp, rfl⟩)⟩

-- ## Claim C2

/-- C2: for every source ship table whose keys are strings convertible to
integers (with dict-unique keys and dict records), the `id2` values produced by
`process_ships` form the contiguous sequence `str(1) .. str(N)` assigned in
ascending numeric order of the original id keys (the `id` column is the sorted
key sequence, a permutation of the table keys, sorted by integer key value),
and the `id_to_id2` / `id2_to_id` tables built from the records are exact
inverse mappings. -/
theorem c2_ship_ids_dense_and_inverse (cm : CodeMapping) (tbl : List (String × Json))
    (hkeys : keysParseB tbl = true) (hnodup : (tbl.map Prod.fst).Nodup)
    (hobj : valsObjB tbl = true) :
    ((process_ships cm tbl).map (fun s => s.id2) =
      (List.range tbl.length).map (fun i => pyStrNat (i + 1)))
    ∧ ((process_ships cm tbl).map (fun s => s.id) = (sortShips tbl).map Prod.fst)
    ∧ List.Sorted shipLE (sortShips tbl)
    ∧ ((process_ships cm tbl).map (fun s => s.id)).Perm (tbl.map Prod.fst)
    ∧ (∀ a b, List.lookup a (id_to_id2 (process_ships cm tbl)) = some b ↔
        List.lookup b (id2_to_id (process_ships cm tbl)) = some a)
    ∧ (∀ s ∈ process_ships cm tbl,
        List.lookup s.id (id_to_id2 (process_ships cm tbl)) = some s.id2 ∧
        List.lookup s.id2 (id2_to_id (process_ships cm tbl)) = some s.id) := by
  have hperm : (sortShips tbl).Perm tbl := List.perm_insertionSort shipLE tbl
  have hlen : (sortShips tbl).length = tbl.length := hperm.length_eq
  have hid2 : (process_ships cm tbl).map (fun s => s.id2) =
      (List.range tbl.length).map (fun i => pyStrNat (i + 1)) := by
    rw [process_ships, processShipsLoop_map_id2, hlen]
    have hfe : (fun i => pyStrNat (1 + i)) = (fun i => pyStrNat (i + 1)) :=
      funext (fun a => congrArg pyStrNat (by omega))
    rw [hfe]
  have hid : (process_ships cm tbl).map (fun s => s.id) = (sortShips tbl).map Prod.fst := by
    rw [process_ships, processShipsLoop_map_id]
  have hidperm : ((process_ships cm tbl).map (fun s => s.id)).Perm (tbl.map Prod.fst) := by
    rw [hid]
    exact hperm.map Prod.fst
  have hidnodup : ((process_ships cm tbl).map (fun s => s.id)).Nodup :=
    (hidperm.symm).nodup hnodup
  have hid2nodup : ((process_ships cm tbl).map (fun s => s.id2)).Nodup := by
    rw [hid2]
    refine List.Nodup.map ?_ (List.nodup_range tbl.length)
    intro a b hab
    have := pyStrNat_inj hab
    omega
  have hkey1 : ((process_ships cm tbl).map (fun s => (s.id, s.id2))).map Prod.fst
      = (process_ships cm tbl).map (fun s => s.id) := by
    rw [List.map_map]
    rfl
  have hkey2 : ((process_ships cm tbl).map (fun s => (s.id, s.id2))).map Prod.snd
      = (process_ships cm tbl).map (fun s => s.id2) := by
    rw [List.map_map]
    rfl
  have hswapview : (process_ships cm tbl).map (fun s => (s.id2, s.id)) =
      ((process_ships cm tbl).map (fun s => (s.id, s.id2))).map (fun p => (p.2, p.1)) := by
    rw [List.map_map]
    rfl
  have hinv := inverse_tables ((process_ships cm tbl).map (fun s => (s.id, s.id2)))
    (by rw [hkey1]; exact hidnodup) (by rw [hkey2]; exact hid2nodup)
  refine ⟨hid2, hid, List.sorted_insertionSort shipLE tbl, hidperm, ?_, ?_⟩
  · intro a b
    show List.lookup a (mkDict ((process_ships cm tbl).map (fun s => (s.id, s.id2)))) = some b ↔
      List.lookup b (mkDict ((process_ships cm tbl).map (fun s => (s.id2, s.id)))) = some a
    rw [hswapview]
    exact hinv.1 a b
  · intro s hs
    have hmem : (s.id, s.id2) ∈ (process_ships cm tbl).map (fun s => (s.id, s.id2)) :=
      List.mem_map.mpr ⟨s, hs, rfl⟩
    have := hinv.2 (s.id, s.id2) hmem
    refine ⟨this.1, ?_⟩
    show List.lookup s.id2 (mkDict ((process_ships cm tbl).map (fun s => (s.id2, s.id)))) = some s.id
    rw [hswapview]
    exact this.2

/-- Witness for C2 at a two-ship table with keys out of numeric order. -/
theorem c2_witness :
    (keysParseB [("20", Json.obj JsonObj.nil), ("3", Json.obj JsonObj.nil)] = true
      ∧ ([("20", Json.obj JsonObj.nil), ("3", Json.obj JsonObj.nil)].map Prod.fst).Nodup
      ∧ valsObjB [("20", Json.obj JsonObj.nil), ("3", Json.obj JsonObj.nil)] = true)
    ∧ ((process_ships [] [("20", Json.obj JsonObj.nil), ("3", Json.obj JsonObj.nil)]).map
        (fun s => s.id2) =
      (List.range 2).map (fun i => pyStrNat (i + 1))) :=
  ⟨⟨by decide, by decide, by decide⟩,
    (c2_ship_ids_dense_and_inverse [] [("20", Json.obj JsonObj.nil), ("3", Json.obj JsonObj.nil)]
      (by decide) (by decide) (by decide)).1⟩

-- ## Lemmas: process_skins loop shape

theorem processSkinsLoop_orig (cm : CodeMapping) :
    ∀ (l : List (String × Json)) (idx : Nat) (skins : List SkinRecord),
      processSkinsLoop cm idx l = some skins →
      skins.map (fun s => s.original_id) =
        (l.filter (fun p => (jGet (replace_namecodes cm p.2) "painting").isSome)).map Prod.fst := by
  intro l
  induction l with
  | nil =>
    intro idx skins h
    injection h with h'
    subst h'
    rfl
  | cons p t ih =>
    intro idx skins h
    obtain ⟨k, v⟩ := p
    simp only [processSkinsLoop] at h
    cases hp : jGet (replace_namecodes cm v) "painting" with
    | none =>
      simp only [hp] at h
      rw [ih idx skins h]
      simp [List.filter_cons, hp]
    | some pv =>
      simp only [hp] at h
      cases hn : jGet (replace_namecodes cm v) "name" with
      | none =>
        simp only [hn] at h
        exact Option.noConfusion h
      | some nm =>
        simp only [hn] at h
        cases hrec : processSkinsLoop cm (idx + 1) t with
        | none => rw [hrec] at h; cases h
        | some skins' =>
          rw [hrec] at h
          simp only [Option.map_some'] at h
          injection h with h'
          subst h'
          simp [List.filter_cons, hp, ih (idx + 1) skins' hrec]
    
theorem processSkinsLoop_ids (cm : CodeMapping) :
    ∀ (l : List (String × Json)) (idx : Nat) (skins : List SkinRecord),
      processSkinsLoop cm idx l = some skins →
      skins.map (fun s => s.id) = (List.range skins.length).map (fun i => pyStrNat (idx + i)) := by
  intro l
  induction l with
  | nil =>
    intro idx skins h
    injection h with h'
    subst h'
    rfl
  | cons p t ih =>
    intro idx skins h
    obtain ⟨k, v⟩ := p
    simp only [processSkinsLoop] at h
    cases hp : jGet (replace_namecodes cm v) "painting" with
    | none =>
      simp only [hp] at h
      exact ih idx skins h
    | some pv =>
      simp only [hp] at h
      cases hn : jGet (replace_namecodes cm v) "name" with
      | none =>
        simp only [hn] at h
        exact Option.noConfusion h
      | some nm =>
        simp only [hn] at h
        cases hrec : processSkinsLoop cm (idx + 1) t with
        | none => rw [hrec] at h; cases h
        | some skins' =>
          rw [hrec] at h
          simp only [Option.map_some'] at h
          injection h with h'
          subst h'
          simp only [List.map_cons, List.length_cons]
          have hfe : (fun i => pyStrNat (idx + 1 + i)) = ((fun i => pyStrNat (idx + i)) ∘ Nat.succ) :=
            funext (fun a => congrArg pyStrNat (by omega))
          rw [ih (idx + 1) skins' hrec, List.range_succ_eq_map, List.map_cons, List.map_map, hfe]
          rfl

-- ## Claim C3

/-- C3: `process_skins` emits a SkinRecord exactly for those source records
(in ascending numeric key order) that contain a `painting` key, regardless of
the value's truthiness; their ids are `str(1) .. str(K)` (strictly increasing
integers starting at 1); and the derived skin `id_to_original` /
`original_to_id` tables are exact inverse mappings over all generated skins.
The hypothesis `process_skins cm tbl = some skins` restricts to runs on which
the Python code does not raise (see C7 for the `KeyError` case). -/
theorem c3_skin_records_and_inverse (cm : CodeMapping) (tbl : List (String × Json))
    (hkeys : keysParseB tbl = true) (hnodup : (tbl.map Prod.fst).Nodup)
    (hobj : valsObjB tbl = true) (skins : List SkinRecord)
    (hres : process_skins cm tbl = some skins) :
    (skins.map (fun s => s.original_id) =
      ((sortShips tbl).filter
        (fun p => (jGet (replace_namecodes cm p.2) "painting").isSome)).map Prod.fst)
    ∧ (skins.map (fun s => s.id) = (List.range skins.length).map (fun i => pyStrNat (i + 1)))
    ∧ (∀ a b, List.lookup a (skin_id_to_original skins) = some b ↔
        List.lookup b (skin_original_to_id skins) = some a)
    ∧ (∀ s ∈ skins,
        List.lookup s.id (skin_id_to_original skins) = some s.original_id ∧
        List.lookup s.original_id (skin_original_to_id skins) = some s.id) := by
  have horig := processSkinsLoop_orig cm (sortShips tbl) 1 skins hres
  have hids' := processSkinsLoop_ids cm (sortShips tbl) 1 skins hres
  have hfe : (fun i => pyStrNat (1 + i)) = (fun i => pyStrNat (i + 1)) :=
    funext (fun a => congrArg pyStrNat (by omega))
  have hids : skins.map (fun s => s.id) =
      (List.range skins.length).map (fun i => pyStrNat (i + 1)) := by
    rw [hids', hfe]
  have hperm : (sortShips tbl).Perm tbl := List.perm_insertionSort shipLE tbl
  have hsortnodup : ((sortShips tbl).map Prod.fst).Nodup := ((hperm.map Prod.fst).symm).nodup hnodup
  have horignodup : (skins.map (fun s => s.original_id)).Nodup := by
    rw [horig]
    exact ((List.filter_sublist (sortShips tbl)).map Prod.fst).nodup hsortnodup
  have hidnodup : (skins.map (fun s => s.id)).Nodup := by
    rw [hids]
    refine List.Nodup.map ?_ (List.nodup_range skins.length)
    intro a b hab
    have := pyStrNat_inj hab
    omega
  have hkey1 : ((skins.map (fun s => (s.id, s.original_id))).map Prod.fst)
      = skins.map (fun s => s.id) := by
    rw [List.map_map]
    rfl
  have hkey2 : ((skins.map (fun s => (s.id, s.original_id))).map Prod.snd)
      = skins.map (fun s => s.original_id) := by
    rw [List.map_map]
    rfl
  have hswapview : skins.map (fun s => (s.original_id, s.id)) =
      (skins.map (fun s => (s.id, s.original_id))).map (fun p => (p.2, p.1)) := by
    rw [List.map_map]
    rfl
  have hinv := inverse_tables (skins.map (fun s => (s.id, s.original_id)))
    (by rw [hkey1]; exact hidnodup) (by rw [hkey2]; exact horignodup)
  refine ⟨horig, hids, ?_, ?_⟩
  · intro a b
    show List.lookup a (mkDict (skins.map (fun s => (s.id, s.original_id)))) = some b ↔
      List.lookup b (mkDict (skins.map (fun s => (s.original_id, s.id)))) = some a
    rw [hswapview]
    exact hinv.1 a b
  · intro s hs
    have hmem : (s.id, s.original_id) ∈ skins.map (fun s => (s.id, s.original_id)) :=
      List.mem_map.mpr ⟨s, hs, rfl⟩
    have := hinv.2 (s.id, s.original_id) hmem
    refine ⟨this.1, ?_⟩
    show List.lookup s.original_id (mkDict (skins.map (fun s => (s.original_id, s.id)))) = some s.id
    rw [hswapview]
    exact this.2

/-- Witness for C3 at the specification's worked example: one ship whose name
carries namecode 5 and that has a `painting` key. -/
theorem c3_witness :
    process_skins [("5", Json.obj (JsonObj.cons "name" (Json.str "Foo") JsonObj.nil))]
      [("101", Json.obj (JsonObj.cons "name" (Json.str "\x7bnamecode:5\x7d")
        (JsonObj.cons "ship_group" (Json.str "G1")
          (JsonObj.cons "painting" (Json.str "p101") JsonObj.nil))))] =
      some [SkinRecord.mk "1" "101" (Json.str "Foo") (Json.str "p101")]
    ∧ ([SkinRecord.mk "1" "101" (Json.str "Foo") (Json.str "p101")].map (fun s => s.id) =
        (List.range 1).map (fun i => pyStrNat (i + 1))) :=
  ⟨by decide,
    (c3_skin_records_and_inverse
      [("5", Json.obj (JsonObj.cons "name" (Json.str "Foo") JsonObj.nil))]
      [("101", Json.obj (JsonObj.cons "name" (Json.str "\x7bnamecode:5\x7d")
        (JsonObj.cons "ship_group" (Json.str "G1")
          (JsonObj.cons "painting" (Json.str "p101") JsonObj.nil))))]
      (by decide) (by decide) (by decide)
      [SkinRecord.mk "1" "101" (Json.str "Foo") (Json.str "p101")]
      (by decide)).2.1⟩

-- ## Claim C7

/-- C7 (the code contradicts the claim): a source record containing a
`painting` key but lacking a `name` key makes `process_skins` raise a
`KeyError` at `processed_data["name"]` (modelled as `none`) instead of
substituting a default value, while `process_ships` on the very same record
follows the default-valued-fallback policy the specification describes
(`.get("name", "")`). -/
theorem c7_missing_name_raises :
    process_skins [] [("1", Json.obj (JsonObj.cons "painting" (Json.str "p") JsonObj.nil))] = none
    ∧ process_ships [] [("1", Json.obj (JsonObj.cons "painting" (Json.str "p") JsonObj.nil))] =
      [ShipRecord.mk "1" "1" (Json.str "") "" (Json.str "p")] := by
  constructor
  · decide
  · decide

-- ## Lemmas: the seen-groups dedup of process_ships

theorem processShipsLoop_group (cm : CodeMapping) :
    ∀ (l : List (String × Json)) (idx : Nat) (seen : List String) (i : Nat), i < l.length →
      ((processShipsLoop cm idx seen l).getD i default).ship_group =
        (if derivedGroupAt cm l i ∈ seen ∨
            (∃ j, j < i ∧ derivedGroupAt cm l j ≠ "" ∧
              derivedGroupAt cm l j = derivedGroupAt cm l i)
         then "" else derivedGroupAt cm l i) := by
  intro l
  induction l with
  | nil => intro idx seen i hi; simp at hi
  | cons p t ih =>
    intro idx seen i hi
    obtain ⟨k, v⟩ := p
    have hzero : derivedGroupAt cm ((k, v) :: t) 0 =
        deriveGroup (jGet (replace_namecodes cm v) "ship_group") := by
      simp [derivedGroupAt]
    have hshift : ∀ j, derivedGroupAt cm ((k, v) :: t) (j + 1) = derivedGroupAt cm t j := by
      intro j
      simp [derivedGroupAt]
    cases i with
    | zero =>
      simp only [processShipsLoop, List.getD_cons_zero]
      refine if_congr ?_ rfl ?_
      · constructor
        · intro h
          exact Or.inl (by rw [hzero]; exact h)
        · rintro (h | ⟨j, hj, _, _⟩)
          · rw [hzero] at h
            exact h
          · exact absurd hj (Nat.not_lt_zero j)
      · rw [hzero]
    | succ i' =>
      have hi' : i' < t.length := by simpa using hi
      simp only [processShipsLoop, List.getD_cons_succ]
      rw [ih (idx + 1) _ i' hi']
      refine if_congr ?_ rfl (by rw [hshift i'])
      constructor
      · rintro (hmem | ⟨j, hj, hne, heq⟩)
        · by_cases hsg : deriveGroup (jGet (replace_namecodes cm v) "ship_group") = ""
          · rw [if_neg (by simp [hsg])] at hmem
            exact Or.inl (by rw [hshift i']; exact hmem)
          · rw [if_pos hsg] at hmem
            rcases List.mem_cons.mp hmem with heq0 | hmem'
            · refine Or.inr ⟨0, by omega, ?_, ?_⟩
              · rw [hzero]; exact hsg
              · rw [hzero, hshift i']; exact heq0.symm
            · exact Or.inl (by rw [hshift i']; exact hmem')
        · refine Or.inr ⟨j + 1, by omega, ?_, ?_⟩
          · rw [hshift j]; exact hne
          · rw [hshift j, hshift i']; exact heq
      · rintro (hmem | ⟨j, hj, hne, heq⟩)
        · rw [hshift i'] at hmem
          left
          by_cases hsg : deriveGroup (jGet (replace_namecodes cm v) "ship_group") = ""
          · rw [if_neg (by simp [hsg])]
            exact hmem
          · rw [if_pos hsg]
            exact List.mem_cons_of_mem _ hmem
        · cases j with
          | zero =>
            rw [hzero] at hne heq
            rw [hshift i'] at heq
            left
            rw [if_pos hne, ← heq]
            exact List.mem_cons_self _ _
          | succ j' =>
            refine Or.inr ⟨j', by omega, ?_, ?_⟩
            · rw [hshift j'] at hne; exact hne
            · rw [hshift j', hshift i'] at heq; exact heq

-- ## Claim C5

/-- C5 counterexample: the claim states that every ShipRecord's `ship_group`
equals the derived value (first truthy element of a list, stringified; truthy
stringified scalar; else empty).  With two ships sharing group "G" the second
record's derived value is "G" but the code's `seen_groups` dedup stores "". -/
theorem c5_counterexample :
    ((process_ships [] [("1", Json.obj (JsonObj.cons "ship_group" (Json.str "G") JsonObj.nil)),
                        ("2", Json.obj (JsonObj.cons "ship_group" (Json.str "G") JsonObj.nil))]).map
        (fun s => s.ship_group) = ["G", ""])
    ∧ derivedGroupAt []
        (sortShips [("1", Json.obj (JsonObj.cons "ship_group" (Json.str "G") JsonObj.nil)),
                    ("2", Json.obj (JsonObj.cons "ship_group" (Json.str "G") JsonObj.nil))]) 1 = "G"
    ∧ ("" : String) ≠ "G" := by
  refine ⟨by decide, by decide, by decide⟩

/-- C5 (amended): in sorted order, the `ship_group` field of the i-th
ShipRecord equals the derived value (first truthy element, stringified, when
the field is a sequence; the stringified scalar when truthy; else ""), except
when a strictly earlier record in the sorted order derived the same non-empty
value, in which case the field is the empty string (the `seen_groups` dedup of
lines 86-88). -/
theorem c5_ship_group_amended (cm : CodeMapping) (tbl : List (String × Json))
    (hkeys : keysParseB tbl = true) (hobj : valsObjB tbl = true) (i : Nat)
    (hi : i < tbl.length) :
    ((∃ j, j < i ∧ derivedGroupAt cm (sortShips tbl) j ≠ "" ∧
        derivedGroupAt cm (sortShips tbl) j = derivedGroupAt cm (sortShips tbl) i) →
      ((process_ships cm tbl).getD i default).ship_group = "")
    ∧ (¬ (∃ j, j < i ∧ derivedGroupAt cm (sortShips tbl) j ≠ "" ∧
        derivedGroupAt cm (sortShips tbl) j = derivedGroupAt cm (sortShips tbl) i) →
      ((process_ships cm tbl).getD i default).ship_group =
        derivedGroupAt cm (sortShips tbl) i) := by
  have hlen : (sortShips tbl).length = tbl.length := (List.perm_insertionSort shipLE tbl).length_eq
  have hmain := processShipsLoop_group cm (sortShips tbl) 1 [] i (by omega)
  constructor
  · intro hex
    rw [process_ships, hmain, if_pos (Or.inr hex)]
  · intro hnot
    rw [process_ships, hmain, if_neg ?_]
    rintro (habs | hex)
    · simp at habs
    · exact hnot hex

/-- Witness for C5 at the dedup table, second record: an earlier record in
sorted order derives the same non-empty group, so the field is empty. -/
theorem c5_witness :
    (keysParseB [("1", Json.obj (JsonObj.cons "ship_group" (Json.str "G") JsonObj.nil)),
                 ("2", Json.obj (JsonObj.cons "ship_group" (Json.str "G") JsonObj.nil))] = true
      ∧ valsObjB [("1", Json.obj (JsonObj.cons "ship_group" (Json.str "G") JsonObj.nil)),
                  ("2", Json.obj (JsonObj.cons "ship_group" (Json.str "G") JsonObj.nil))] = true)
    ∧ ((process_ships [] [("1", Json.obj (JsonObj.cons "ship_group" (Json.str "G") JsonObj.nil)),
                          ("2", Json.obj (JsonObj.cons "ship_group" (Json.str "G") JsonObj.nil))]).getD
          1 default).ship_group = "" :=
  ⟨⟨by decide, by decide⟩,
    (c5_ship_group_amended []
      [("1", Json.obj (JsonObj.cons "ship_group" (Json.str "G") JsonObj.nil)),
       ("2", Json.obj (JsonObj.cons "ship_group" (Json.str "G") JsonObj.nil))]
      (by decide) (by decide) 1 (by decide)).1
      ⟨0, Nat.zero_lt_one, by decide, by decide⟩⟩

-- ## Lemmas: voice-mapping emission refinement

theorem insertAll_append {β : Type} (gm : List (String × β)) (a b : List (String × β)) :
    insertAll gm (a ++ b) = insertAll (insertAll gm a) b := by
  simp [insertAll, List.foldl_append]

theorem lookup_dictInsert_self {β : Type} :
    ∀ (gm : List (String × β)) (k : String) (v : β),
      List.lookup k (dictInsert gm k v) = some v := by
  intro gm
  induction gm with
  | nil =>
    intro k v
    simp [dictInsert, List.lookup_cons]
  | cons p t ih =>
    intro k v
    obtain ⟨k0, v0⟩ := p
    by_cases h : k0 = k
    · subst h
      simp [dictInsert, List.lookup_cons]
    · simp only [dictInsert, if_neg h]
      rw [List.lookup_cons]
      have : (k == k0) = false := by simpa using Ne.symm h
      rw [this]
      exact ih k v

theorem insertMainLines_eq (suffix : String) (name : Json) :
    ∀ (lines : List String) (i : Nat) (gm : List (String × Json)),
      insertMainLines suffix name i lines gm =
        insertAll gm (((lines.enumFrom i).map
          (fun p => "main_" ++ pyStrNat p.1 ++ suffix)).map (fun k => (k, name))) := by
  intro lines
  induction lines with
  | nil => intro i gm; rfl
  | cons x rest ih =>
    intro i gm
    simp only [insertMainLines, List.enumFrom, List.map_cons]
    rw [ih (i + 1) (dictInsert gm ("main_" ++ pyStrNat i ++ suffix) name)]
    rfl

theorem emitFields_eq (suffix : String) (name : Json) :
    ∀ (items : List (String × Json)) (gm : List (String × Json)),
      emitFields suffix name items gm =
        insertAll gm (((items.map (fun p => specFieldKeys suffix p.1 p.2)).flatten).map
          (fun k => (k, name))) := by
  intro items
  induction items with
  | nil => intro gm; rfl
  | cons p rest ih =>
    intro gm
    obtain ⟨key, value⟩ := p
    cases value with
    | str v =>
      by_cases hstrip : pyStrip v = ""
      · simp only [emitFields, specFieldKeys, if_pos hstrip, List.map_cons, List.flatten_cons,
          List.nil_append]
        exact ih gm
      · by_cases hmain : pyStartsWith key "main"
        · simp only [emitFields, specFieldKeys, if_neg hstrip, if_pos hmain, List.map_cons,
            List.flatten_cons, List.map_append, insertAll_append]
          rw [ih (insertMainLines suffix name 1 (split_main_lines v) gm),
            insertMainLines_eq suffix name (split_main_lines v) 1 gm]
          rfl
        · simp only [emitFields, specFieldKeys, if_neg hstrip, if_neg hmain, List.map_cons,
            List.flatten_cons, List.map_append, insertAll_append]
          rw [ih (dictInsert gm (voiceBase key ++ suffix) name)]
          rfl
    | num n =>
      simp only [emitFields, specFieldKeys, List.map_cons, List.flatten_cons, List.nil_append]
      exact ih gm
    | bool b =>
      simp only [emitFields, specFieldKeys, List.map_cons, List.flatten_cons, List.nil_append]
      exact ih gm
    | null =>
      simp only [emitFields, specFieldKeys, List.map_cons, List.flatten_cons, List.nil_append]
      exact ih gm
    | arr xs =>
      simp only [emitFields, specFieldKeys, List.map_cons, List.flatten_cons, List.nil_append]
      exact ih gm
    | obj kvs =>
      simp only [emitFields, specFieldKeys, List.map_cons, List.flatten_cons, List.nil_append]
      exact ih gm

theorem emitSkins_eq (words : List (String × Json)) :
    ∀ (l : List SkinEntry) (gm : List (String × Json)),
      emitSkins words l gm = insertAll gm ((l.map (specSkinPairs words)).flatten) := by
  intro l
  induction l with
  | nil => intro gm; rfl
  | cons sk rest ih =>
    intro gm
    simp only [List.map_cons, List.flatten_cons, insertAll_append]
    cases hlk : List.lookup sk.skin_id words with
    | none =>
      simp only [emitSkins, hlk, specSkinPairs]
      exact ih gm
    | some wd =>
      cases wd with
      | obj kvs =>
        simp only [emitSkins, hlk, specSkinPairs]
        rw [ih (emitFields (suffixOf sk.group_index) sk.name kvs.toList gm),
          emitFields_eq (suffixOf sk.group_index) sk.name kvs.toList gm]
      | str s =>
        simp only [emitSkins, hlk, specSkinPairs]
        exact ih gm
      | num n =>
        simp only [emitSkins, hlk, specSkinPairs]
        exact ih gm
      | bool b =>
        simp only [emitSkins, hlk, specSkinPairs]
        exact ih gm
      | null =>
        simp only [emitSkins, hlk, specSkinPairs]
        exact ih gm
      | arr xs =>
        simp only [emitSkins, hlk, specSkinPairs]
        exact ih gm

-- ## Claim C4

/-- C4 counterexample: the claim says every field whose value is a non-empty
string emits a key; the code skips values that are blank after stripping.
The voice-line record of the only skin of group "1" has `touch` = " "
(a non-empty string), for which the claim requires the key `touch_1`, yet the
generated group map contains no key at all. -/
theorem c4_counterexample :
    List.lookup "touch_1"
      ((List.lookup "1" (generate_skin_voice_mapping
        [("10", Json.obj (JsonObj.cons "ship_group" (Json.num 1)
          (JsonObj.cons "name" (Json.str "S") JsonObj.nil)))]
        [("10", Json.obj (JsonObj.cons "touch" (Json.str " ") JsonObj.nil))])).getD []) = none
    ∧ (" " : String) ≠ "" := by
  constructor
  · decide
  · decide

/-- C4 (amended): with "non-empty string" read as "string that is non-empty
after stripping whitespace" the claimed emission rule holds: the generated
voice mapping equals the specification-side mapping in which, for each skin
taken in group order (stable sort by `group_index`) that has a voice-line
record, every field whose value is a non-blank string emits keys —
`main*` fields one `main_<1-based line index><suffix>` per `|`-separated
trimmed non-empty line, `drop_descrip` as `get<suffix>`, `touch`/`touch2` as
`touch_1<suffix>`/`touch_2<suffix>`, any other field as
`<field name><suffix>` — all mapped to the skin's display name, inserted in
order with later entries overwriting earlier keys.  Moreover `<suffix>` is
empty exactly when `group_index = 0`, and an insertion at an existing key
overwrites it without error. -/
theorem c4_voice_mapping_amended (template words : List (String × Json))
    (ht : tmplOKb template = true) (hw : wordsOKb words = true) :
    generate_skin_voice_mapping template words = spec_skin_voice_mapping template words
    ∧ (∀ gi : Int, suffixOf gi = "" ↔ gi = 0)
    ∧ (∀ (gm : List (String × Json)) (k : String) (v : Json),
        List.lookup k (dictInsert gm k v) = some v) := by
  refine ⟨?_, ?_, fun gm k v => lookup_dictInsert_self gm k v⟩
  · unfold generate_skin_voice_mapping spec_skin_voice_mapping
    refine List.map_congr_left ?_
    intro p _
    exact congrArg (fun m => (p.1, m)) (emitSkins_eq words p.2 [])
  · intro gi
    by_cases h : gi = 0
    · simp [suffixOf, h]
    · simp only [suffixOf, if_neg h]
      constructor
      · intro habs
        have hd := congrArg String.data habs
        rw [String.data_append] at hd
        cases hd
      · intro habs
        exact absurd habs h

/-- Witness for C4 at the specification's voice-mapping example: group "1" has
skins at `group_index` 0 and 1 with `main` lines `A|B` and `C`; the theorem
applies, and evaluation confirms `main_1 -> S0`, `main_2 -> S0`,
`main_1_1 -> S1`. -/
theorem c4_witness :
    (tmplOKb [("10", Json.obj (JsonObj.cons "ship_group" (Json.num 1)
        (JsonObj.cons "group_index" (Json.num 0)
          (JsonObj.cons "name" (Json.str "S0") JsonObj.nil)))),
      ("11", Json.obj (JsonObj.cons "ship_group" (Json.num 1)
        (JsonObj.cons "group_index" (Json.num 1)
          (JsonObj.cons "name" (Json.str "S1") JsonObj.nil))))] = true
      ∧ wordsOKb [("10", Json.obj (JsonObj.cons "main" (Json.str "A|B") JsonObj.nil)),
          ("11", Json.obj (JsonObj.cons "main" (Json.str "C") JsonObj.nil))] = true)
    ∧ generate_skin_voice_mapping
        [("10", Json.obj (JsonObj.cons "ship_group" (Json.num 1)
          (JsonObj.cons "group_index" (Json.num 0)
            (JsonObj.cons "name" (Json.str "S0") JsonObj.nil)))),
         ("11", Json.obj (JsonObj.cons "ship_group" (Json.num 1)
          (JsonObj.cons "group_index" (Json.num 1)
            (JsonObj.cons "name" (Json.str "S1") JsonObj.nil))))]
        [("10", Json.obj (JsonObj.cons "main" (Json.str "A|B") JsonObj.nil)),
         ("11", Json.obj (JsonObj.cons "main" (Json.str "C") JsonObj.nil))] =
      spec_skin_voice_mapping
        [("10", Json.obj (JsonObj.cons "ship_group" (Json.num 1)
          (JsonObj.cons "group_index" (Json.num 0)
            (JsonObj.cons "name" (Json.str "S0") JsonObj.nil)))),
         ("11", Json.obj (JsonObj.cons "ship_group" (Json.num 1)
          (JsonObj.cons "group_index" (Json.num 1)
            (JsonObj.cons "name" (Json.str "S1") JsonObj.nil))))]
        [("10", Json.obj (JsonObj.cons "main" (Json.str "A|B") JsonObj.nil)),
         ("11", Json.obj (JsonObj.cons "main" (Json.str "C") JsonObj.nil))]
    ∧ generate_skin_voice_mapping
        [("10", Json.obj (JsonObj.cons "ship_group" (Json.num 1)
          (JsonObj.cons "group_index" (Json.num 0)
            (JsonObj.cons "name" (Json.str "S0") JsonObj.nil)))),
         ("11", Json.obj (JsonObj.cons "ship_group" (Json.num 1)
          (JsonObj.cons "group_index" (Json.num 1)
            (JsonObj.cons "name" (Json.str "S1") JsonObj.nil))))]
        [("10", Json.obj (JsonObj.cons "main" (Json.str "A|B") JsonObj.nil)),
         ("11", Json.obj (JsonObj.cons "main" (Json.str "C") JsonObj.nil))] =
      [("1", [("main_1", Json.str "S0"), ("main_2", Json.str "S0"),
              ("main_1_1", Json.str "S1")])] :=
  ⟨⟨by decide, by decide⟩,
    (c4_voice_mapping_amended
      [("10", Json.obj (JsonObj.cons "ship_group" (Json.num 1)
        (JsonObj.cons "group_index" (Json.num 0)
          (JsonObj.cons "name" (Json.str "S0") JsonObj.nil)))),
       ("11", Json.obj (JsonObj.cons "ship_group" (Json.num 1)
        (JsonObj.cons "group_index" (Json.num 1)
          (JsonObj.cons "name" (Json.str "S1") JsonObj.nil))))]
      [("10", Json.obj (JsonObj.cons "main" (Json.str "A|B") JsonObj.nil)),
       ("11", Json.obj (JsonObj.cons "main" (Json.str "C") JsonObj.nil))]
      (by decide) (by decide)).1,
    by decide⟩

-- ## Lemmas: orchestration gates

theorem gate_shipTemplate (env : MainEnv) :
    (!(env.shipTemplate.getD []).isEmpty) = inputOK env InputFile.shipTemplateF := by
  cases h : env.shipTemplate with
  | none => simp [inputOK, h]
  | some d => simp [inputOK, h]

theorem gate_shipWords (env : MainEnv) :
    (!(env.shipWords.getD []).isEmpty) = inputOK env InputFile.shipWordsF := by
  cases h : env.shipWords with
  | none => simp [inputOK, h]
  | some d => simp [inputOK, h]

theorem gate_nameCode (env : MainEnv) :
    (!(env.nameCode.getD []).isEmpty) = inputOK env InputFile.nameCodeF := by
  cases h : env.nameCode with
  | none => simp [inputOK, h]
  | some d => simp [inputOK, h]

theorem shipTemplate_isSome_of_inputOK (env : MainEnv)
    (h : inputOK env InputFile.shipTemplateF = true) : env.shipTemplate.isSome = true := by
  cases hs : env.shipTemplate with
  | none => rw [show inputOK env InputFile.shipTemplateF = false by simp [inputOK, hs]] at h; cases h
  | some d => simp

theorem shipWords_isSome_of_inputOK (env : MainEnv)
    (h : inputOK env InputFile.shipWordsF = true) : env.shipWords.isSome = true := by
  cases hs : env.shipWords with
  | none => rw [show inputOK env InputFile.shipWordsF = false by simp [inputOK, hs]] at h; cases h
  | some d => simp

theorem inputOK_shipTemplate_of_none (env : MainEnv) (h : env.shipTemplate = none) :
    inputOK env InputFile.shipTemplateF = false := by
  simp [inputOK, h]

theorem inputOK_shipWords_of_none (env : MainEnv) (h : env.shipWords = none) :
    inputOK env InputFile.shipWordsF = false := by
  simp [inputOK, h]

-- ## Claim C8

theorem mainOutputs_no_abort (env : MainEnv)
    (hc : combinedAborts (env.nameCode.getD []) (env.shipTemplate.getD [])
      (env.shipWords.getD []) = false)
    (hn : nameJsonAborts (env.nameCode.getD []) (env.shipTemplate.getD []) = false) :
    mainOutputs env false false = gateOutputs env := by
  by_cases h1 : env.shipTemplate.getD [] = [] <;>
    by_cases h2 : env.shipWords.getD [] = [] <;>
      by_cases h3 : env.nameCode.getD [] = [] <;>
        simp [mainOutputs, gateOutputs, mainTail, voicePart, hc, hn, h1, h2, h3]

/-- The C7 input aborts the whole run before any write: the gate at line 400
passes, `generate_combined_data` raises the `KeyError` of `process_skins`,
and no output at all is generated. -/
theorem mainOutputs_c7_abort :
    mainOutputs
      (MainEnv.mk
        (some [("1", Json.obj (JsonObj.cons "painting" (Json.str "p") JsonObj.nil))])
        (some [("1", Json.obj JsonObj.nil)])
        (some [("1", Json.obj JsonObj.nil)]))
      false false = [] := by
  decide

/-- C8: on a run in which no transformation stage raises (the decidable
no-abort hypotheses below, mirroring C2/C3/C5: well-formed namecode table, no
computable combined-stage abort — in particular `process_skins` succeeds —, no
name-json abort, and the two parameterised later stages not raising), when a
required input file is missing or loads as empty only outputs depending on it
are skipped, and every output all of whose required inputs are found and
non-empty is still generated.  Clause 1: an output whose dependencies are all
fully available is in the written set (in particular a missing
`ship_skin_template.json` cannot prevent an output that does not depend on
it).  Clause 2: an output that is not written has some dependency missing or
empty. -/
theorem c8_graceful_degradation (env : MainEnv) (configRaises voiceRaises : Bool)
    (hcm : cmWFb (env.nameCode.getD []) = true)
    (hcombined : combinedAborts (env.nameCode.getD []) (env.shipTemplate.getD [])
      (env.shipWords.getD []) = false)
    (hname : nameJsonAborts (env.nameCode.getD []) (env.shipTemplate.getD []) = false)
    (hconfig : configRaises = false) (hvoice : voiceRaises = false) :
    (∀ o : OutputFile, (∀ i ∈ outDeps o, inputOK env i = true) →
      o ∈ mainOutputs env configRaises voiceRaises)
    ∧ (∀ o : OutputFile, o ∉ mainOutputs env configRaises voiceRaises →
      ∃ i, i ∈ outDeps o ∧ inputOK env i = false) := by
  subst hconfig hvoice
  rw [mainOutputs_no_abort env hcombined hname]
  constructor
  · intro o h
    cases o with
    | alCombinedFinal =>
      have hT := h InputFile.shipTemplateF (by simp [outDeps])
      have hW := h InputFile.shipWordsF (by simp [outDeps])
      have hN := h InputFile.nameCodeF (by simp [outDeps])
      simp [gateOutputs, gate_shipTemplate, gate_shipWords, gate_nameCode, hT, hW, hN]
    | zumingJson =>
      have hT := h InputFile.shipTemplateF (by simp [outDeps])
      have hW := h InputFile.shipWordsF (by simp [outDeps])
      have hN := h InputFile.nameCodeF (by simp [outDeps])
      simp [gateOutputs, gate_shipTemplate, gate_shipWords, gate_nameCode, hT, hW, hN]
    | nameJson =>
      have hT := h InputFile.shipTemplateF (by simp [outDeps])
      have hW := h InputFile.shipWordsF (by simp [outDeps])
      have hN := h InputFile.nameCodeF (by simp [outDeps])
      simp [gateOutputs, gate_shipTemplate, gate_shipWords, gate_nameCode, hT, hW, hN]
    | textConfigJson =>
      have hN := h InputFile.nameCodeF (by simp [outDeps])
      simp [gateOutputs, gate_nameCode, hN]
    | skinVoiceMapping =>
      have hT := shipTemplate_isSome_of_inputOK env (h InputFile.shipTemplateF (by simp [outDeps]))
      have hW := shipWords_isSome_of_inputOK env (h InputFile.shipWordsF (by simp [outDeps]))
      simp [gateOutputs, hT, hW]
  · intro o h
    cases o with
    | alCombinedFinal =>
      by_cases hT : inputOK env InputFile.shipTemplateF = true
      · by_cases hW : inputOK env InputFile.shipWordsF = true
        · by_cases hN : inputOK env InputFile.nameCodeF = true
          · exact absurd (by
              simp [gateOutputs, gate_shipTemplate, gate_shipWords, gate_nameCode, hT, hW, hN]) h
          · exact ⟨InputFile.nameCodeF, by simp [outDeps], by simpa using hN⟩
        · exact ⟨InputFile.shipWordsF, by simp [outDeps], by simpa using hW⟩
      · exact ⟨InputFile.shipTemplateF, by simp [outDeps], by simpa using hT⟩
    | zumingJson =>
      by_cases hT : inputOK env InputFile.shipTemplateF = true
      · by_cases hW : inputOK env InputFile.shipWordsF = true
        · by_cases hN : inputOK env InputFile.nameCodeF = true
          · exact absurd (by
              simp [gateOutputs, gate_shipTemplate, gate_shipWords, gate_nameCode, hT, hW, hN]) h
          · exact ⟨InputFile.nameCodeF, by simp [outDeps], by simpa using hN⟩
        · exact ⟨InputFile.shipWordsF, by simp [outDeps], by simpa using hW⟩
      · exact ⟨InputFile.shipTemplateF, by simp [outDeps], by simpa using hT⟩
    | nameJson =>
      by_cases hT : inputOK env InputFile.shipTemplateF = true
      · by_cases hW : inputOK env InputFile.shipWordsF = true
        · by_cases hN : inputOK env InputFile.nameCodeF = true
          · exact absurd (by
              simp [gateOutputs, gate_shipTemplate, gate_shipWords, gate_nameCode, hT, hW, hN]) h
          · exact ⟨InputFile.nameCodeF, by simp [outDeps], by simpa using hN⟩
        · exact ⟨InputFile.shipWordsF, by simp [outDeps], by simpa using hW⟩
      · exact ⟨InputFile.shipTemplateF, by simp [outDeps], by simpa using hT⟩
    | textConfigJson =>
      by_cases hN : inputOK env InputFile.nameCodeF = true
      · exact absurd (by simp [gateOutputs, gate_nameCode, hN]) h
      · exact ⟨InputFile.nameCodeF, by simp [outDeps], by simpa using hN⟩
    | skinVoiceMapping =>
      by_cases hT : env.shipTemplate.isSome = true
      · by_cases hW : env.shipWords.isSome = true
        · exact absurd (by simp [gateOutputs, hT, hW]) h
        · have hnone : env.shipWords = none := Option.not_isSome_iff_eq_none.mp (by simpa using hW)
          exact ⟨InputFile.shipWordsF, by simp [outDeps], inputOK_shipWords_of_none env hnone⟩
      · have hnone : env.shipTemplate = none := Option.not_isSome_iff_eq_none.mp (by simpa using hT)
        exact ⟨InputFile.shipTemplateF, by simp [outDeps], inputOK_shipTemplate_of_none env hnone⟩

/-- Witness for C8: with `ship_skin_template.json` missing but the namecode
table present, non-empty and well-formed, no stage raises and the auxiliary
text-config output (which does not depend on the template) is still
generated. -/
theorem c8_witness :
    (cmWFb ((MainEnv.mk none (some []) (some [("1", Json.obj JsonObj.nil)])).nameCode.getD []) = true
      ∧ combinedAborts
          ((MainEnv.mk none (some []) (some [("1", Json.obj JsonObj.nil)])).nameCode.getD [])
          ((MainEnv.mk none (some []) (some [("1", Json.obj JsonObj.nil)])).shipTemplate.getD [])
          ((MainEnv.mk none (some []) (some [("1", Json.obj JsonObj.nil)])).shipWords.getD []) = false
      ∧ nameJsonAborts
          ((MainEnv.mk none (some []) (some [("1", Json.obj JsonObj.nil)])).nameCode.getD [])
          ((MainEnv.mk none (some []) (some [("1", Json.obj JsonObj.nil)])).shipTemplate.getD []) = false
      ∧ (∀ i ∈ outDeps OutputFile.textConfigJson,
          inputOK (MainEnv.mk none (some []) (some [("1", Json.obj JsonObj.nil)])) i = true))
    ∧ OutputFile.textConfigJson ∈
        mainOutputs (MainEnv.mk none (some []) (some [("1", Json.obj JsonObj.nil)])) false false :=
  ⟨⟨by decide, by decide, by decide, by decide⟩,
    (c8_graceful_degradation (MainEnv.mk none (some []) (some [("1", Json.obj JsonObj.nil)]))
      false false (by decide) (by decide) (by decide) rfl rfl).1
      OutputFile.textConfigJson (by decide)⟩

-- ## Claim C9

/-- C9 (modelled from the spec; the story dialogue structurer is not part of
src/): a story key appears in `story_dialogues_structured.json` exactly when
some entry under that key yields at least one extracted dialogue line; in
particular every story whose script sequence yields no extracted line (steps
with an empty `say` text or no `say` text at all) is excluded entirely. -/
theorem c9_story_exclusion (cm : CodeMapping) (stories : List (String × Json)) (k : String) :
    k ∈ (story_dialogues_structured cm stories).map Prod.fst ↔
      ∃ e, (k, e) ∈ stories ∧ storyLines cm e ≠ [] := by
  unfold story_dialogues_structured
  rw [List.Perm.mem_iff ((List.perm_insertionSort storyKeyLE _).map Prod.fst)]
  rw [List.mem_map]
  constructor
  · rintro ⟨pr, hpr, hfst⟩
    rcases List.mem_filterMap.mp hpr with ⟨p, hp, hgp⟩
    obtain ⟨p1, p2⟩ := p
    cases hl : storyLines cm p2 with
    | nil =>
      simp only [hl] at hgp
      exact Option.noConfusion hgp
    | cons a as =>
      simp only [hl] at hgp
      injection hgp with h'
      subst h'
      simp only [] at hfst
      subst hfst
      exact ⟨p2, hp, by rw [hl]; simp⟩
  · rintro ⟨e, he, hne⟩
    cases hl : storyLines cm e with
    | nil => exact absurd hl hne
    | cons a as =>
      refine ⟨(k, a :: as), List.mem_filterMap.mpr ⟨(k, e), he, ?_⟩, rfl⟩
      simp only [hl]
